import Mathlib

/-!
Shallow embedding of `tfe_base.py` (the 2048 board engine of goedel-gang/nctfe)
and proofs about it.

Modelling conventions:
* Cells are `Int` because `sift` internally writes the sentinel `-1` into a
  cell ("`-1` here flags that this square has already merged").
* Python list indexing/assignment becomes `List.getD _ _ 0` / `List.set`;
  every claim is stated with the in-bounds hypotheses satisfied by the real
  line sequences, so the out-of-bounds defaults are never exercised.
* `random.choice`/`random.random` in `add_random` are passed in as data: a
  natural `k` selecting the position among the empty cells, and a Boolean
  `two` telling whether `random() < 0.9` held (tile 2) or not (tile 4).
* `raise GameOver("The board is full.")` becomes the `none` result of
  `Option`.  The raise happens before any mutation, so the board is
  unchanged when it fires.
* The sift state additionally carries a ghost log `merges` of
  `(target cell, score increment)` pairs, recorded exactly at the source's
  merge site and used only to state verification properties (the source has
  no such log; erasing the `merges` component yields exactly the source).
-/

/-- Fuel-driven loop body of `ilog`.  `n // 2` strictly decreases while
positive, so fuel `n` always suffices; the fuel only makes the recursion
structural (so that it reduces definitionally). -/
def ilogGo : Nat → Nat → Nat
  | 0, _ => 0
  | fuel + 1, n => if n = 0 then 0 else ilogGo fuel (n / 2) + 1

/-- `ilog` from `tfe_base.py` at its default base 2: iterated integer
division counting the iterations (`while n > 0: n //= base; exp += 1`). -/
def ilog (n : Nat) : Nat := ilogGo n n

/-- `ANSI_VALS` from `tfe_base.py`: 17 literal pairs followed by
`(i, 0) for i in range(1, 16)`. -/
def ANSI_VALS : List (Nat × Nat) :=
  [(0, 15), (226, 0), (46, 0), (208, 15), (33, 15), (135, 15), (130, 15),
   (125, 15), (123, 0), (120, 0), (52, 15), (160, 15), (214, 0), (53, 15),
   (17, 15), (87, 0), (255, 0)] ++ (List.range 15).map (fun i => (i + 1, 0))

/-- `ANSI_ESCS`: each pair formatted into an SGR colour escape. -/
def ANSI_ESCS : List String :=
  ANSI_VALS.map (fun p =>
    "\x1b[48;5;" ++ toString p.1 ++ "m\x1b[38;5;" ++ toString p.2 ++ "m")

/-- A 2048 board: side length `n`, `score`, and the flat row-major
`squares` list.  The four line sequences the constructor precomputes are
pure functions of `n` (they are never mutated), so they are modelled as the
functions `up_seq`/`down_seq`/`left_seq`/`right_seq` below rather than as
fields. -/
structure TFEBoard where
  n : Nat
  score : Int
  squares : List Int
deriving DecidableEq, Repr

/-- `self.up_seq = [range(i, n ** 2, n) for i in range(n)]`. -/
def up_seq (n : Nat) : List (List Nat) :=
  (List.range n).map (fun i => (List.range n).map (fun j => i + j * n))

/-- `self.down_seq = [r[::-1] for r in self.up_seq]`. -/
def down_seq (n : Nat) : List (List Nat) :=
  (up_seq n).map List.reverse

/-- `self.left_seq = [range(i, i + n) for i in range(0, n * n, n)]`. -/
def left_seq (n : Nat) : List (List Nat) :=
  (List.range n).map (fun r => (List.range n).map (fun j => r * n + j))

/-- `self.right_seq = [r[::-1] for r in self.left_seq]`. -/
def right_seq (n : Nat) : List (List Nat) :=
  (left_seq n).map List.reverse

/-- `available = [ind for ind, i in enumerate(self.squares) if i == 0]`
(the list of empty cell indices scanned by `add_random`). -/
def available (sq : List Int) : List Nat :=
  (List.range sq.length).filter (fun ind => decide (sq.getD ind 0 = 0))

/-- `add_random`, with the two random draws passed in: `k` selects the
position among `available` (`random.choice`), `two` tells whether
`random() < 0.9` held (insert a 2) or not (insert a 4).  `none` models
`raise GameOver("The board is full.")`, which fires before any mutation. -/
def TFEBoard.add_random (b : TFEBoard) (k : Nat) (two : Bool) :
    Option TFEBoard :=
  let avail := available b.squares
  if avail = [] then none
  else
    let loc := avail.getD (k % avail.length) 0
    some { b with squares := b.squares.set loc (if two then 2 else 4) }

/-- `TFEBoard.__init__`: score 0, `n ** 2` zeroed cells, then two
`add_random` calls (with their random draws passed in). -/
def TFEBoard.init (n : Nat) (k1 k2 : Nat) (two1 two2 : Bool) :
    Option TFEBoard :=
  let b0 : TFEBoard := ⟨n, 0, List.replicate (n ^ 2) 0⟩
  (b0.add_random k1 two1).bind (fun b => b.add_random k2 two2)

/-- State threaded through one `sift` call: the squares, the score, the
`any_moved` flag, plus the ghost merge log (see the file header). -/
structure SiftState where
  squares : List Int
  score : Int
  any_moved : Bool
  merges : List (Nat × Int)
deriving DecidableEq, Repr

/-- The inner loop of `sift` (`for step_i in seq[:ind][::-1]: ...`),
with `sift_square` and `prev_i` exactly as in the source.  `steps` is the
remaining `seq[:ind][::-1]` suffix. -/
def siftStep (sift_square : Int) (prev_i : Nat) (steps : List Nat)
    (s : SiftState) : SiftState :=
  match steps with
  | [] => s
  | step_i :: rest =>
    let target_square := s.squares.getD step_i 0
    if target_square ≤ 0 then
      -- slide: squares[step_i] = sift_square; squares[prev_i] = 0
      let squares' := (s.squares.set step_i sift_square).set prev_i 0
      if target_square = -1 then
        { s with squares := squares', any_moved := true }
      else
        siftStep sift_square step_i rest
          { s with squares := squares', any_moved := true }
    else if target_square = sift_square then
      -- merge: squares[step_i] = sift_square * 2; score += sift_square * 2;
      -- squares[prev_i] = -1 (and record the ghost merge event)
      { squares := (s.squares.set step_i (sift_square * 2)).set prev_i (-1),
        score := s.score + sift_square * 2,
        any_moved := true,
        merges := s.merges ++ [(step_i, sift_square * 2)] }
    else s

/-- The outer loop of `sift` (`for ind, i in enumerate(seq): ...`);
`pairs` is the remaining suffix of `enumerate(seq)`. -/
def siftLoop (seq : List Nat) (pairs : List (Nat × Nat)) (s : SiftState) :
    SiftState :=
  match pairs with
  | [] => s
  | (ind, i) :: rest =>
    let sift_square := s.squares.getD i 0
    siftLoop seq rest
      (if sift_square ≠ 0 then siftStep sift_square i ((seq.take ind).reverse) s
       else s)

/-- The final `# clean up -1s` pass of `sift`. -/
def cleanup (seq : List Nat) (squares : List Int) : List Int :=
  seq.foldl (fun sq i => if sq.getD i 0 = -1 then sq.set i 0 else sq) squares

/-- `TFEBoard.sift`: sift the squares down the indices in `seq`, returning
the updated board and the `any_moved` flag. -/
def TFEBoard.sift (b : TFEBoard) (seq : List Nat) : TFEBoard × Bool :=
  let s := siftLoop seq seq.enum ⟨b.squares, b.score, false, []⟩
  ({ b with squares := cleanup seq s.squares, score := s.score }, s.any_moved)

/-- The ghost merge log of one `sift` call (verification instrumentation,
not part of the source). -/
def TFEBoard.siftMerges (b : TFEBoard) (seq : List Nat) : List (Nat × Int) :=
  (siftLoop seq seq.enum ⟨b.squares, b.score, false, []⟩).merges

/-- The sifting fold inside `sift_all`:
`for seq in seqs: any_moved = self.sift(seq) or any_moved`
(by construction this applies `sift` to every line; the `or` on the right
cannot short-circuit past the `sift` call). -/
def siftFold (b : TFEBoard) (seqs : List (List Nat)) : TFEBoard × Bool :=
  seqs.foldl (fun acc seq =>
    let r := acc.1.sift seq
    (r.1, r.2 || acc.2)) (b, false)

/-- The concatenated ghost merge logs of the sifting fold. -/
def foldMerges (b : TFEBoard) : List (List Nat) → List (Nat × Int)
  | [] => []
  | seq :: rest => b.siftMerges seq ++ foldMerges (b.sift seq).1 rest

/-- `TFEBoard.sift_all`: sift every line, then `add_random` exactly when
some line moved; returns `(board, any_moved)`, or `none` when the spawn
hits a full board. -/
def TFEBoard.sift_all (b : TFEBoard) (seqs : List (List Nat)) (k : Nat)
    (two : Bool) : Option (TFEBoard × Bool) :=
  let p := siftFold b seqs
  if p.2 then (p.1.add_random k two).map (fun b2 => (b2, true))
  else some (p.1, false)

/-- The four directional moves as one operation over a direction
enumeration (`up`/`down`/`left`/`right` each call `sift_all` on their
precomputed line sequences). -/
inductive Direction | up | down | left | right
deriving DecidableEq, Repr

/-- The line sequences a direction sifts over. -/
def dirSeqs (n : Nat) : Direction → List (List Nat)
  | .up => up_seq n
  | .down => down_seq n
  | .left => left_seq n
  | .right => right_seq n

/-- `Move(d)`: the directional move operation. -/
def TFEBoard.move (b : TFEBoard) (d : Direction) (k : Nat) (two : Bool) :
    Option (TFEBoard × Bool) :=
  b.sift_all (dirSeqs b.n d) k two

/-- The colour escape `w_fmt` picks for a cell holding `s` when
`ansi=True`: `ANSI_ESCS[min(ilog(s), len(ANSI_ESCS) - 1)]`.  (`w_fmt` only
ever formats the board's nonnegative cells, for which Python's `ilog`
agrees with `ilog` on `Int.toNat`.) -/
def w_fmt_colour (s : Int) : String :=
  ANSI_ESCS.getD (min (ilog s.toNat) (ANSI_ESCS.length - 1)) ""

/-- Nonzero powers of two, the legal nonzero tile values. -/
def IsPow2 (x : Int) : Prop := ∃ k : Nat, x = 2 ^ k

/-- Number of nonzero cells (occupied tiles) of a squares list. -/
def nonzeroCount (sq : List Int) : Nat :=
  sq.countP (fun x => decide (x ≠ 0))

/-- The value of a cell as visible outside a sift pass: the `-1` sentinel
(and the empty cell) count as 0. -/
def vis (x : Int) : Int := if 0 < x then x else 0

/-- Visible occupancy of a cell: 1 for a tile, 0 for empty/sentinel. -/
def occ (x : Int) : Int := if 0 < x then 1 else 0

/-- Sum of a cell weight over a squares list. -/
def cellSum (f : Int → Int) (sq : List Int) : Int := (sq.map f).sum

/-- Occupancy of the cells of one line, weighted by 1-based position
(`w` is the weight of the head); tiles sliding toward the wall strictly
decrease it. -/
def linePotFrom (sq : List Int) : Int → List Nat → Int
  | _, [] => 0
  | w, c :: rest => w * occ (sq.getD c 0) + linePotFrom sq (w + 1) rest

/-- Positional potential of one line. -/
def linePot (sq : List Int) (seq : List Nat) : Int := linePotFrom sq 1 seq

/-- Positional potential of a whole direction (sum over its lines). -/
def dirPot (sq : List Int) (seqs : List (List Nat)) : Int :=
  (seqs.map (linePot sq)).sum

/-- Soundness of the ghost merge log relative to a line `seq`: every
logged merge sits at a line position `t` with `t + 1 ≤ bound`, its target
cell is occupied, and the cell at the successor position `t + 1` is not
zero (it holds the sentinel or a tile), which is what blocks any later
tile from sliding onto the merged cell and double-merging. -/
def MergesOk (seq : List Nat) (sq : List Int) (bound : Nat)
    (ms : List (Nat × Int)) : Prop :=
  ∀ e ∈ ms, ∃ t, t + 1 < seq.length ∧ seq.getD t 0 = e.1 ∧ t + 1 ≤ bound ∧
    0 < sq.getD (seq.getD t 0) 0 ∧ sq.getD (seq.getD (t + 1) 0) 0 ≠ 0

/-- Every `-1` sentinel sits at a cell of `seq` whose position is at most
`bound` (so the processed prefix owns all sentinels). -/
def SentinelsOk (seq : List Nat) (sq : List Int) (bound : Nat) : Prop :=
  ∀ j, sq.getD j 0 = -1 →
    ∃ p, p < seq.length ∧ seq.getD p 0 = j ∧ p ≤ bound

/-! ### List helper lemmas -/

theorem getD_set_self (l : List Int) (i : Nat) (v : Int)
    (h : i < l.length) : (l.set i v).getD i 0 = v := by
  simp [List.getElem?_set_self h]

theorem getD_set_ne (l : List Int) (i j : Nat) (v : Int) (h : i ≠ j) :
    (l.set i v).getD j 0 = l.getD j 0 := by
  simp [List.getElem?_set_ne h]

theorem mem_of_mem_set (l : List Int) (i : Nat) (v x : Int)
    (h : x ∈ l.set i v) : x ∈ l ∨ x = v :=
  List.mem_or_eq_of_mem_set h

theorem getD_mem (l : List Int) (j : Nat) (h : j < l.length) :
    l.getD j 0 ∈ l := by
  rw [List.getD_eq_getElem?_getD, List.getElem?_eq_getElem h]
  exact List.getElem_mem h

theorem nonzeroCount_set_of_zero (l : List Int) :
    ∀ i, i < l.length → l.getD i 0 = 0 → ∀ v, v ≠ 0 →
      nonzeroCount (l.set i v) = nonzeroCount l + 1 := by
  induction l with
  | nil => intro i h; simp at h
  | cons x t ih =>
    intro i hi hz v hv
    cases i with
    | zero =>
      simp only [List.getD_cons_zero] at hz
      subst hz
      simp [nonzeroCount, List.set, List.countP_cons, hv]
    | succ m =>
      simp only [List.getD_cons_succ] at hz
      simp only [List.length_cons, Nat.succ_lt_succ_iff] at hi
      simp only [List.set, nonzeroCount, List.countP_cons]
      have := ih m hi hz v hv
      simp only [nonzeroCount] at this
      omega

theorem nonzeroCount_replicate_zero (n : Nat) :
    nonzeroCount (List.replicate n 0) = 0 := by
  induction n with
  | zero => rfl
  | succ m ih =>
    simp only [List.replicate, nonzeroCount, List.countP_cons] at *
    simp [ih]

/-! ### `available` and `add_random` -/

theorem mem_available (sq : List Int) (j : Nat) :
    j ∈ available sq ↔ j < sq.length ∧ sq.getD j 0 = 0 := by
  simp [available, List.mem_filter, List.mem_range]

theorem available_ne_nil (sq : List Int) (j : Nat) (h1 : j < sq.length)
    (h2 : sq.getD j 0 = 0) : available sq ≠ [] := by
  intro hemp
  have := (mem_available sq j).2 ⟨h1, h2⟩
  rw [hemp] at this
  exact List.not_mem_nil j this

theorem choice_mem (l : List Nat) (h : l ≠ []) (k : Nat) :
    l.getD (k % l.length) 0 ∈ l := by
  have hl : 0 < l.length := List.length_pos.2 h
  have hk : k % l.length < l.length := Nat.mod_lt _ hl
  rw [List.getD_eq_getElem?_getD, List.getElem?_eq_getElem hk]
  exact List.getElem_mem hk

/-- Successful spawn: when an empty cell exists, `add_random` fills one
previously empty in-bounds cell with 2 or 4 and changes nothing else. -/
theorem add_random_spec (b : TFEBoard) (k : Nat) (two : Bool)
    (h : available b.squares ≠ []) :
    ∃ loc b', b.add_random k two = some b' ∧ loc < b.squares.length ∧
      b.squares.getD loc 0 = 0 ∧
      b'.squares = b.squares.set loc (if two then 2 else 4) ∧
      b'.score = b.score ∧ b'.n = b.n := by
  have hmem := choice_mem (available b.squares) h k
  have hav := (mem_available b.squares _).1 hmem
  refine ⟨(available b.squares).getD (k % (available b.squares).length) 0,
    { b with squares := (b.squares.set
        ((available b.squares).getD (k % (available b.squares).length) 0)
        (if two then 2 else 4)) },
    ?_, hav.1, hav.2, rfl, rfl, rfl⟩
  unfold TFEBoard.add_random
  simp [h]

theorem add_random_none_iff (b : TFEBoard) (k : Nat) (two : Bool) :
    b.add_random k two = none ↔ available b.squares = [] := by
  unfold TFEBoard.add_random
  split
  · simp [*]
  · simp [*]

/-- C7: on a board with at least one empty cell, `add_random` sets exactly
one previously-empty in-bounds cell to 2 or 4 and leaves every other cell,
the score and the dimension unchanged; when the scan finds exactly one
empty index it always fills that one; on a full board it signals the
board-full error (`GameOver`, modelled as `none`) — the raise precedes any
mutation in the source, so the board is left completely unchanged. -/
theorem c7_add_random_spec (b : TFEBoard) (k : Nat) (two : Bool) :
    ((∃ j, j < b.squares.length ∧ b.squares.getD j 0 = 0) →
      ∃ loc b', b.add_random k two = some b' ∧
        loc < b.squares.length ∧ b.squares.getD loc 0 = 0 ∧
        b'.squares.getD loc 0 = (if two then 2 else 4) ∧
        ((if two then (2 : Int) else 4) = 2 ∨ (if two then (2 : Int) else 4) = 4) ∧
        (∀ j, j ≠ loc → b'.squares.getD j 0 = b.squares.getD j 0) ∧
        b'.score = b.score ∧ b'.n = b.n ∧
        nonzeroCount b'.squares = nonzeroCount b.squares + 1) ∧
    (∀ e, available b.squares = [e] →
      ∃ b', b.add_random k two = some b' ∧
        b'.squares = b.squares.set e (if two then 2 else 4)) ∧
    (available b.squares = [] → b.add_random k two = none) := by
  refine ⟨?_, ?_, ?_⟩
  · rintro ⟨j, hj, hjz⟩
    obtain ⟨loc, b', he, hlt, hz, hsq, hsc, hn⟩ :=
      add_random_spec b k two (available_ne_nil b.squares j hj hjz)
    refine ⟨loc, b', he, hlt, hz, ?_, ?_, ?_, hsc, hn, ?_⟩
    · rw [hsq]; exact getD_set_self _ _ _ hlt
    · cases two <;> simp
    · intro j' hj'
      rw [hsq]; exact getD_set_ne _ _ _ _ (fun h => hj' h.symm)
    · rw [hsq]
      exact nonzeroCount_set_of_zero b.squares loc hlt hz _
        (by cases two <;> simp)
  · intro e he
    refine ⟨{ b with squares := (b.squares.set e (if two then 2 else 4)) },
      ?_, rfl⟩
    unfold TFEBoard.add_random
    rw [he]
    simp [Nat.mod_one]
  · intro he
    exact (add_random_none_iff b k two).2 he

/-- C7 witness: a full 1-cell board raises, and a 2×2 board with empties
gets one 2 spawned. -/
theorem c7_witness :
    TFEBoard.add_random ⟨1, 0, [2]⟩ 0 true = none ∧
    (∃ b', TFEBoard.add_random ⟨2, 0, [2, 4, 0, 8]⟩ 0 true = some b' ∧
      b'.squares = ([2, 4, 0, 8] : List Int).set 2 2) := by
  constructor
  · exact (c7_add_random_spec ⟨1, 0, [2]⟩ 0 true).2.2 (by decide)
  · exact (c7_add_random_spec ⟨2, 0, [2, 4, 0, 8]⟩ 0 true).2.1 2 (by decide)

/-- C9 (amended): for every `n ≥ 2` construction completes and yields a
board with `n²` cells, score 0, and exactly two nonzero cells each holding
2 or 4 (the two constructor spawns); all other cells are empty.  For
`n = 1` the claim fails: the second constructor spawn hits a full board
and raises (see the counterexample). -/
theorem c9_construction_amended (n k1 k2 : Nat) (t1 t2 : Bool)
    (hn : 2 ≤ n) :
    ∃ b, TFEBoard.init n k1 k2 t1 t2 = some b ∧ b.n = n ∧ b.score = 0 ∧
      b.squares.length = n ^ 2 ∧ nonzeroCount b.squares = 2 ∧
      ∀ x ∈ b.squares, x = 0 ∨ x = 2 ∨ x = 4 := by
  have h4 : 4 ≤ n ^ 2 := by
    calc (4 : Nat) = 2 ^ 2 := rfl
    _ ≤ n ^ 2 := Nat.pow_le_pow_left hn 2
  set b0 : TFEBoard := ⟨n, 0, List.replicate (n ^ 2) 0⟩ with hb0
  have hlen0 : b0.squares.length = n ^ 2 := List.length_replicate _ _
  have hgetD0 : ∀ j, j < n ^ 2 → b0.squares.getD j 0 = 0 := by
    intro j hj
    show (List.replicate (n ^ 2) (0 : Int)).getD j 0 = 0
    rw [List.getD_eq_getElem?_getD,
      List.getElem?_eq_getElem (by rw [List.length_replicate]; exact hj)]
    simp
  obtain ⟨loc1, b1, he1, hlt1, hz1, hsq1, hsc1, hn1⟩ :=
    add_random_spec b0 k1 t1
      (available_ne_nil _ 0 (by omega) (hgetD0 0 (by omega)))
  have hlen1 : b1.squares.length = n ^ 2 := by
    rw [hsq1, List.length_set, hlen0]
  have hv1 : b1.squares.getD loc1 0 = (if t1 then 2 else 4) := by
    rw [hsq1]; exact getD_set_self _ _ _ hlt1
  have hv1nz : b1.squares.getD loc1 0 ≠ 0 := by
    rw [hv1]; cases t1 <;> simp
  have hj0 : ∃ j0, j0 < n ^ 2 ∧ j0 ≠ loc1 := by
    by_cases h : loc1 = 0
    · exact ⟨1, by omega, by omega⟩
    · exact ⟨0, by omega, fun hc => h hc.symm⟩
  obtain ⟨j0, hj0lt, hj0ne⟩ := hj0
  have hz0 : b1.squares.getD j0 0 = 0 := by
    rw [hsq1, getD_set_ne _ _ _ _ (fun h => hj0ne h.symm)]
    exact hgetD0 j0 hj0lt
  obtain ⟨loc2, b2, he2, hlt2, hz2, hsq2, hsc2, hn2⟩ :=
    add_random_spec b1 k2 t2
      (available_ne_nil _ j0 (by rw [hlen1]; exact hj0lt) hz0)
  refine ⟨b2, ?_, ?_, ?_, ?_, ?_, ?_⟩
  · show (b0.add_random k1 t1).bind (fun b => b.add_random k2 t2) = some b2
    rw [he1, Option.some_bind]
    exact he2
  · rw [hn2, hn1]
  · rw [hsc2, hsc1]
  · rw [hsq2, List.length_set, hlen1]
  · have hne : loc2 ≠ loc1 := by
      intro hc
      rw [hc] at hz2
      exact hv1nz hz2
    rw [hsq2,
      nonzeroCount_set_of_zero b1.squares loc2 hlt2 hz2 _
        (by cases t2 <;> simp),
      hsq1,
      nonzeroCount_set_of_zero b0.squares loc1 hlt1 hz1 _
        (by cases t1 <;> simp)]
    show nonzeroCount (List.replicate (n ^ 2) 0) + 1 + 1 = 2
    rw [nonzeroCount_replicate_zero]
  · intro x hx
    rw [hsq2] at hx
    rcases mem_of_mem_set _ _ _ _ hx with hx1 | hx2
    · rw [hsq1] at hx1
      rcases mem_of_mem_set _ _ _ _ hx1 with hx0 | hxv
      · left
        exact List.eq_of_mem_replicate hx0
      · rw [hxv]; cases t1 <;> simp
    · rw [hx2]; cases t2 <;> simp

/-- C9 witness at `n = 2`. -/
theorem c9_witness :
    2 ≤ 2 ∧
    (∃ b, TFEBoard.init 2 0 0 true true = some b ∧ b.n = 2 ∧ b.score = 0 ∧
      b.squares.length = 2 ^ 2 ∧ nonzeroCount b.squares = 2 ∧
      ∀ x ∈ b.squares, x = 0 ∨ x = 2 ∨ x = 4) :=
  ⟨le_rfl, c9_construction_amended 2 0 0 true true le_rfl⟩

/-- C1: applying `sift` to a single line of four cells ordered toward
index 0 produces exactly the spec's reference results: `[2, 2, 0, 2]`
becomes `[4, 2, 0, 0]` with `changed = true` and the score increased by 4;
`[2, 2, 2, 0]` becomes `[4, 2, 0, 0]` with the score increased by 4 (only
the first pair merges, the third tile slides adjacent without
chain-merging); `[2, 4, 8, 16]` is left unchanged with
`changed = false`. -/
theorem c1_sift_reference_lines :
    TFEBoard.sift ⟨2, 0, [2, 2, 0, 2]⟩ [0, 1, 2, 3] =
      (⟨2, 4, [4, 2, 0, 0]⟩, true) ∧
    TFEBoard.sift ⟨2, 0, [2, 2, 2, 0]⟩ [0, 1, 2, 3] =
      (⟨2, 4, [4, 2, 0, 0]⟩, true) ∧
    TFEBoard.sift ⟨2, 0, [2, 4, 8, 16]⟩ [0, 1, 2, 3] =
      (⟨2, 0, [2, 4, 8, 16]⟩, false) := by
  exact ⟨by decide, by decide, by decide⟩

/-- C4 counterexample: the left move on the board `[2, 2, 2, 2]` (n = 2)
returns `true` after performing two merges, and the number of nonzero
tiles drops from 4 to 3 — it does not increase by exactly 1 as the claim
states. -/
theorem c4_counterexample :
    TFEBoard.move ⟨2, 0, [2, 2, 2, 2]⟩ .left 0 true =
      some (⟨2, 8, [4, 2, 4, 0]⟩, true) ∧
    nonzeroCount [4, 2, 4, 0] ≠ nonzeroCount [2, 2, 2, 2] + 1 := by
  exact ⟨by decide, by decide⟩

/-- C9 counterexample: constructing a board with `n = 1` does not complete:
the single cell is filled by the first spawn, and the second spawn of the
constructor hits a full board and raises (`GameOver("The board is
full.")`, modelled as `none`). -/
theorem c9_counterexample : TFEBoard.init 1 0 0 true true = none := by
  decide

theorem ilogGo_zero (f : Nat) : ilogGo f 0 = 0 := by
  cases f <;> simp [ilogGo]

theorem ilogGo_congr :
    ∀ f1 f2 n, n ≤ f1 → n ≤ f2 → ilogGo f1 n = ilogGo f2 n := by
  intro f1
  induction f1 with
  | zero =>
    intro f2 n h1 _
    have : n = 0 := Nat.le_zero.mp h1
    subst this
    rw [ilogGo_zero, ilogGo_zero]
  | succ f ih =>
    intro f2 n h1 h2
    cases n with
    | zero => rw [ilogGo_zero, ilogGo_zero]
    | succ m =>
      obtain ⟨f2', rfl⟩ : ∃ k, f2 = k + 1 := ⟨f2 - 1, by omega⟩
      have hlt : (m + 1) / 2 < m + 1 := Nat.div_lt_self (by omega) (by omega)
      simp only [ilogGo, if_neg (Nat.succ_ne_zero m)]
      exact congrArg (· + 1) (ih f2' ((m + 1) / 2) (by omega) (by omega))

/-- The recursion equation of `ilog` (the fuel never runs out). -/
theorem ilog_rec (n : Nat) (h : n ≠ 0) : ilog n = ilog (n / 2) + 1 := by
  obtain ⟨m, rfl⟩ : ∃ k, n = k + 1 := ⟨n - 1, by omega⟩
  have hlt : (m + 1) / 2 < m + 1 := Nat.div_lt_self (by omega) (by omega)
  show ilogGo (m + 1) (m + 1) = ilogGo ((m + 1) / 2) ((m + 1) / 2) + 1
  simp only [ilogGo, if_neg (Nat.succ_ne_zero m)]
  exact congrArg (· + 1) (ilogGo_congr m ((m + 1) / 2) ((m + 1) / 2)
    (by omega) le_rfl)

/-- Python's iterative `ilog` counts binary digits: on nonzero input it is
`⌊log₂ n⌋ + 1`, one more than the logarithm the spec names. -/
theorem ilog_eq_log2_succ : ∀ n, n ≠ 0 → ilog n = Nat.log2 n + 1 := by
  intro n
  induction n using Nat.strong_induction_on with
  | _ n ih =>
    intro hn
    rcases Nat.lt_or_ge n 2 with h2 | h2
    · have : n = 1 := by omega
      subst this
      rw [ilog_rec 1 (by omega)]
      rw [Nat.log2]
      norm_num
      show ilogGo 0 0 = 0
      rfl
    · rw [ilog_rec n hn]
      rw [ih (n / 2) (Nat.div_lt_self (by omega) (by omega)) (by omega)]
      conv_rhs => rw [Nat.log2]
      rw [if_pos h2]

theorem ANSI_ESCS_length : ANSI_ESCS.length = 32 := by
  simp [ANSI_ESCS, ANSI_VALS]

/-- C10 counterexample: for the tile value 2 the colour index computed by
`w_fmt` is `min(ilog(2), len(ANSI_ESCS) - 1) = 2`, not
`floor(log_2(2)) = 1` — the iterative `ilog` counts binary digits, which
is `floor(log_2(v)) + 1` on nonzero values, and indices 1 and 2 select
different entries of the colour table. -/
theorem c10_counterexample :
    min (ilog 2) (ANSI_ESCS.length - 1) ≠ Nat.log2 2 ∧
    ANSI_VALS.getD 2 (0, 0) ≠ ANSI_VALS.getD 1 (0, 0) := by
  constructor
  · have h1 : ilog 2 = 2 := rfl
    have h3 : Nat.log2 2 = 1 := by
      rw [Nat.log2]
      norm_num
      rw [Nat.log2]
      norm_num
    rw [h1, ANSI_ESCS_length, h3]
    omega
  · decide

/-- C10 (amended): for every nonzero tile value `v` the formatting helper
selects the colour code at index `min(⌊log₂ v⌋ + 1, 31)` into the fixed
colour table (31 = `len(ANSI_ESCS) - 1`, the cap at the largest defined
entry); the index the claim names is off by one, `ilog` being the binary
digit count rather than `⌊log₂ v⌋`.  In the embedding the formatter is a
pure function of the board, so it leaves cells, score and dimension
unchanged by construction. -/
theorem c10_colour_index_amended (s : Int) (h : 0 < s) :
    w_fmt_colour s = ANSI_ESCS.getD (min (Nat.log2 s.toNat + 1) 31) "" := by
  unfold w_fmt_colour
  rw [ilog_eq_log2_succ s.toNat (by omega), ANSI_ESCS_length]

/-- Witness for C10 at the tile value 2. -/
theorem c10_witness :
    (0 : Int) < 2 ∧
    w_fmt_colour 2 =
      ANSI_ESCS.getD (min (Nat.log2 (2 : Int).toNat + 1) 31) "" :=
  ⟨by norm_num, c10_colour_index_amended 2 (by norm_num)⟩

/-! ### Generic cell lemmas -/

theorem getD_eq_zero_of_le (l : List Int) (j : Nat) (h : l.length ≤ j) :
    l.getD j 0 = 0 := by
  rw [List.getD_eq_getElem?_getD, List.getElem?_eq_none h]
  rfl

theorem lt_length_of_getD_ne_zero (l : List Int) (j : Nat)
    (h : l.getD j 0 ≠ 0) : j < l.length := by
  by_contra hc
  exact h (getD_eq_zero_of_le l j (by omega))

theorem natGetD_mem (l : List Nat) (q : Nat) (h : q < l.length) :
    l.getD q 0 ∈ l := by
  rw [List.getD_eq_getElem?_getD, List.getElem?_eq_getElem h]
  exact List.getElem_mem h

theorem nodup_getD_inj (l : List Nat) (hnd : l.Nodup) (p q : Nat)
    (hp : p < l.length) (hq : q < l.length)
    (h : l.getD p 0 = l.getD q 0) : p = q := by
  rw [List.getD_eq_getElem?_getD, List.getElem?_eq_getElem hp] at h
  rw [List.getD_eq_getElem?_getD, List.getElem?_eq_getElem hq] at h
  exact hnd.getElem_inj_iff.1 (by simpa using h)

theorem take_reverse_cons (seq : List Nat) (m : Nat) (h : m < seq.length) :
    (seq.take (m + 1)).reverse = seq.getD m 0 :: (seq.take m).reverse := by
  rw [List.take_succ, List.getElem?_eq_getElem h]
  simp [List.getD_eq_getElem?_getD, List.getElem?_eq_getElem h]

theorem occ_of_nonpos (x : Int) (h : x ≤ 0) : occ x = 0 := by
  simp [occ]; omega

theorem occ_of_pos (x : Int) (h : 0 < x) : occ x = 1 := by
  simp [occ]; omega

theorem vis_of_nonpos (x : Int) (h : x ≤ 0) : vis x = 0 := by
  simp [vis]; omega

theorem vis_of_pos (x : Int) (h : 0 < x) : vis x = x := by
  simp [vis]; omega

theorem cellSum_set (f : Int → Int) (l : List Int) :
    ∀ j, j < l.length → ∀ v,
      cellSum f (l.set j v) = cellSum f l + f v - f (l.getD j 0) := by
  induction l with
  | nil => intro j h; simp at h
  | cons x t ih =>
    intro j hj v
    cases j with
    | zero =>
      simp only [List.set, cellSum, List.map_cons, List.sum_cons,
        List.getD_cons_zero]
      ring
    | succ m =>
      simp only [List.set, cellSum, List.map_cons, List.sum_cons,
        List.getD_cons_succ]
      have hm : m < t.length := by simpa using hj
      have := ih m hm v
      simp only [cellSum] at this
      rw [this]
      ring

theorem cellSum_occ_le_length (l : List Int) :
    cellSum occ l ≤ (l.length : Int) := by
  induction l with
  | nil => simp [cellSum]
  | cons x t ih =>
    simp only [cellSum, List.map_cons, List.sum_cons, List.length_cons]
    have : occ x ≤ 1 := by simp [occ]; omega
    push_cast
    simp only [cellSum] at ih
    omega

theorem cellSum_occ_eq_length_iff (l : List Int) :
    cellSum occ l = (l.length : Int) ↔ ∀ x ∈ l, 0 < x := by
  induction l with
  | nil => simp [cellSum]
  | cons x t ih =>
    simp only [cellSum, List.map_cons, List.sum_cons, List.length_cons,
      List.mem_cons]
    constructor
    · intro h
      have h1 : occ x ≤ 1 := by simp [occ]; omega
      have h2 : 0 ≤ occ x := by simp [occ]; omega
      have h3 := cellSum_occ_le_length t
      simp only [cellSum] at h3
      have hx : occ x = 1 := by push_cast at h ⊢; omega
      have ht : (t.map occ).sum = (t.length : Int) := by
        push_cast at h ⊢; omega
      intro y hy
      rcases hy with rfl | hy
      · by_contra hc; rw [occ_of_nonpos y (by omega)] at hx; omega
      · exact (ih.1 ht) y hy
    · intro h
      rw [occ_of_pos x (h x (Or.inl rfl))]
      have := ih.2 (fun y hy => h y (Or.inr hy))
      simp only [cellSum] at this
      push_cast
      omega

theorem cellSum_vis_eq_sum (l : List Int) (h : ∀ x ∈ l, 0 ≤ x) :
    cellSum vis l = l.sum := by
  induction l with
  | nil => simp [cellSum]
  | cons x t ih =>
    simp only [cellSum, List.map_cons, List.sum_cons]
    have hx : 0 ≤ x := h x (List.mem_cons_self x t)
    have hv : vis x = x := by
      simp only [vis]
      split <;> omega
    rw [hv]
    have := ih (fun y hy => h y (List.mem_cons_of_mem x hy))
    simp only [cellSum] at this
    rw [this]

theorem cellSum_occ_eq_nonzeroCount (l : List Int) (h : ∀ x ∈ l, 0 ≤ x) :
    cellSum occ l = (nonzeroCount l : Int) := by
  induction l with
  | nil => simp [cellSum, nonzeroCount]
  | cons x t ih =>
    simp only [cellSum, List.map_cons, List.sum_cons, nonzeroCount,
      List.countP_cons]
    have hx : 0 ≤ x := h x (List.mem_cons_self x t)
    have := ih (fun y hy => h y (List.mem_cons_of_mem x hy))
    simp only [cellSum, nonzeroCount] at this
    by_cases hz : x = 0
    · subst hz
      simp [occ, this]
    · rw [occ_of_pos x (by omega), this]
      simp [hz]
      ring

theorem linePotFrom_congr (sq1 sq2 : List Int) :
    ∀ (cells : List Nat),
      (∀ c ∈ cells, occ (sq1.getD c 0) = occ (sq2.getD c 0)) →
      ∀ w, linePotFrom sq1 w cells = linePotFrom sq2 w cells := by
  intro cells
  induction cells with
  | nil => intro _ w; rfl
  | cons c rest ih =>
    intro h w
    simp only [linePotFrom]
    rw [h c (List.mem_cons_self c rest),
      ih (fun c' hc' => h c' (List.mem_cons_of_mem c hc')) (w + 1)]

theorem linePotFrom_set (sq : List Int) :
    ∀ (cells : List Nat), cells.Nodup →
      ∀ q, q < cells.length → cells.getD q 0 < sq.length →
      ∀ (v : Int) (w : Int),
        linePotFrom (sq.set (cells.getD q 0) v) w cells =
          linePotFrom sq w cells +
            (w + q) * (occ v - occ (sq.getD (cells.getD q 0) 0)) := by
  intro cells
  induction cells with
  | nil => intro _ q hq; simp at hq
  | cons c rest ih =>
    intro hnd q hq hc v w
    have hndr : rest.Nodup := hnd.of_cons
    have hcr : c ∉ rest := (List.nodup_cons.1 hnd).1
    cases q with
    | zero =>
      simp only [List.getD_cons_zero] at hc ⊢
      simp only [linePotFrom]
      rw [getD_set_self sq c v hc]
      rw [linePotFrom_congr (sq.set c v) sq rest
        (fun c' hc' => by rw [getD_set_ne sq c c' v (fun he => hcr (he ▸ hc'))])
        (w + 1)]
      push_cast
      ring
    | succ m =>
      simp only [List.getD_cons_succ] at hc ⊢
      have hm : m < rest.length := by simpa using hq
      have hmem : rest.getD m 0 ∈ rest := natGetD_mem rest m hm
      have hne : c ≠ rest.getD m 0 := fun he => hcr (he ▸ hmem)
      simp only [linePotFrom]
      rw [getD_set_ne sq (rest.getD m 0) c v (fun he => hne he.symm)]
      rw [ih hndr m hm hc v (w + 1)]
      push_cast
      ring

/-! ### Unconditional facts about the sift loops -/

theorem siftStep_length (slider : Int) :
    ∀ (steps : List Nat) (prev : Nat) (s : SiftState),
      (siftStep slider prev steps s).squares.length = s.squares.length := by
  intro steps
  induction steps with
  | nil => intro prev s; rfl
  | cons c rest ih =>
    intro prev s
    simp only [siftStep]
    split
    · split
      · simp [List.length_set]
      · rw [ih]; simp [List.length_set]
    · split
      · simp [List.length_set]
      · rfl

theorem siftStep_moved (slider : Int) :
    ∀ (steps : List Nat) (prev : Nat) (s : SiftState),
      s.any_moved = true → (siftStep slider prev steps s).any_moved = true := by
  intro steps
  induction steps with
  | nil => intro prev s h; exact h
  | cons c rest ih =>
    intro prev s h
    simp only [siftStep]
    split
    · split
      · rfl
      · exact ih c _ rfl
    · split
      · rfl
      · exact h

theorem siftStep_untouched (slider : Int) :
    ∀ (steps : List Nat) (prev : Nat) (s : SiftState) (j : Nat),
      j ∉ (prev :: steps) →
      (siftStep slider prev steps s).squares.getD j 0 =
        s.squares.getD j 0 := by
  intro steps
  induction steps with
  | nil => intro prev s j _; rfl
  | cons c rest ih =>
    intro prev s j hj
    have hjp : j ≠ prev := by intro h; exact hj (h ▸ List.mem_cons_self _ _)
    have hjc : j ≠ c := by
      intro h
      exact hj (h ▸ List.mem_cons_of_mem _ (List.mem_cons_self _ _))
    have hjr : j ∉ (c :: rest) := by
      intro h
      rcases List.mem_cons.1 h with h1 | h1
      · exact hjc h1
      · exact hj (List.mem_cons_of_mem _ (List.mem_cons_of_mem _ h1))
    simp only [siftStep]
    split
    · split
      · simp only
        rw [getD_set_ne _ _ _ _ (fun h => hjp h.symm),
          getD_set_ne _ _ _ _ (fun h => hjc h.symm)]
      · rw [ih c _ j hjr]
        simp only
        rw [getD_set_ne _ _ _ _ (fun h => hjp h.symm),
          getD_set_ne _ _ _ _ (fun h => hjc h.symm)]
    · split
      · simp only
        rw [getD_set_ne _ _ _ _ (fun h => hjp h.symm),
          getD_set_ne _ _ _ _ (fun h => hjc h.symm)]
      · rfl

theorem siftStep_sentinels (slider : Int) :
    ∀ (steps : List Nat) (prev : Nat) (s : SiftState) (W : List Nat),
      prev ∈ W → (∀ c ∈ steps, c ∈ W) →
      (∀ j, s.squares.getD j 0 = -1 → j ∈ W) →
      ∀ j, (siftStep slider prev steps s).squares.getD j 0 = -1 → j ∈ W := by
  intro steps
  induction steps with
  | nil => intro prev s W _ _ hs j hj; exact hs j hj
  | cons c rest ih =>
    intro prev s W hprev hsteps hs j hj
    have hcW : c ∈ W := hsteps c (List.mem_cons_self _ _)
    have hrest : ∀ c' ∈ rest, c' ∈ W :=
      fun c' hc' => hsteps c' (List.mem_cons_of_mem _ hc')
    simp only [siftStep] at hj
    by_cases h1 : s.squares.getD c 0 ≤ 0
    · rw [if_pos h1] at hj
      by_cases h2 : s.squares.getD c 0 = -1
      · rw [if_pos h2] at hj
        simp only at hj
        by_cases hjp : j = prev
        · exact hjp ▸ hprev
        · by_cases hjc : j = c
          · exact hjc ▸ hcW
          · rw [getD_set_ne _ _ _ _ (fun h => hjp h.symm),
              getD_set_ne _ _ _ _ (fun h => hjc h.symm)] at hj
            exact hs j hj
      · rw [if_neg h2] at hj
        refine ih c _ W hcW hrest ?_ j hj
        intro j' hj'
        by_cases hjp : j' = prev
        · exact hjp ▸ hprev
        · by_cases hjc : j' = c
          · exact hjc ▸ hcW
          · simp only at hj'
            rw [getD_set_ne _ _ _ _ (fun h => hjp h.symm),
              getD_set_ne _ _ _ _ (fun h => hjc h.symm)] at hj'
            exact hs j' hj'
    · rw [if_neg h1] at hj
      by_cases h3 : s.squares.getD c 0 = slider
      · rw [if_pos h3] at hj
        simp only at hj
        by_cases hjp : j = prev
        · exact hjp ▸ hprev
        · by_cases hjc : j = c
          · exact hjc ▸ hcW
          · rw [getD_set_ne _ _ _ _ (fun h => hjp h.symm),
              getD_set_ne _ _ _ _ (fun h => hjc h.symm)] at hj
            exact hs j hj
      · rw [if_neg h3] at hj
        exact hs j hj

theorem siftStep_cells (P : Int → Prop) (hPd : ∀ v, P v → P (v * 2))
    (slider : Int) :
    ∀ (steps : List Nat) (prev : Nat) (s : SiftState),
      (slider = -1 ∨ slider = 0 ∨ P slider) →
      (∀ x ∈ s.squares, x = -1 ∨ x = 0 ∨ P x) →
      ∀ x ∈ (siftStep slider prev steps s).squares,
        x = -1 ∨ x = 0 ∨ P x := by
  intro steps
  induction steps with
  | nil => intro prev s _ hok x hx; exact hok x hx
  | cons c rest ih =>
    intro prev s hsl hok
    have hset : ∀ (a b : Int), a = -1 ∨ a = 0 ∨ P a → b = -1 ∨ b = 0 ∨ P b →
        ∀ x ∈ (s.squares.set c a).set prev b, x = -1 ∨ x = 0 ∨ P x := by
      intro a b ha hb x hx
      rcases mem_of_mem_set _ _ _ _ hx with hx1 | hx1
      · rcases mem_of_mem_set _ _ _ _ hx1 with hx0 | hx0
        · exact hok x hx0
        · exact hx0 ▸ ha
      · exact hx1 ▸ hb
    simp only [siftStep]
    split
    · split
      · exact hset slider 0 hsl (Or.inr (Or.inl rfl))
      · exact ih c _ hsl (hset slider 0 hsl (Or.inr (Or.inl rfl)))
    · rename_i h1
      split
      · rename_i h3
        have htmem : s.squares.getD c 0 ∈ s.squares :=
          getD_mem s.squares c (lt_length_of_getD_ne_zero _ _ (by omega))
        have hP : P slider := by
          rcases hok _ htmem with h | h | h
          · omega
          · omega
          · exact h3 ▸ h
        exact hset (slider * 2) (-1) (Or.inr (Or.inr (hPd slider hP)))
          (Or.inl rfl)
      · exact hok

theorem siftStep_score (slider : Int) :
    ∀ (steps : List Nat) (prev : Nat) (s : SiftState),
      ∃ new, (siftStep slider prev steps s).merges = s.merges ++ new ∧
        (siftStep slider prev steps s).score =
          s.score + (new.map Prod.snd).sum ∧
        ∀ e ∈ new, 0 < e.2 := by
  intro steps
  induction steps with
  | nil => intro prev s; exact ⟨[], by simp [siftStep], by simp [siftStep], by simp⟩
  | cons c rest ih =>
    intro prev s
    simp only [siftStep]
    split
    · split
      · exact ⟨[], by simp, by simp, by simp⟩
      · exact ih c _
    · rename_i h1
      split
      · rename_i h3
        refine ⟨[(c, slider * 2)], by simp, by simp, ?_⟩
        intro e he
        simp only [List.mem_singleton] at he
        subst he
        simp only
        omega
      · exact ⟨[], by simp, by simp, by simp⟩

theorem siftLoop_length (seq : List Nat) :
    ∀ (pairs : List (Nat × Nat)) (s : SiftState),
      (siftLoop seq pairs s).squares.length = s.squares.length := by
  intro pairs
  induction pairs with
  | nil => intro s; rfl
  | cons p rest ih =>
    intro s
    obtain ⟨ind, i⟩ := p
    simp only [siftLoop]
    split
    · rw [ih]; exact siftStep_length _ _ _ _
    · exact ih s

theorem siftLoop_moved (seq : List Nat) :
    ∀ (pairs : List (Nat × Nat)) (s : SiftState),
      s.any_moved = true → (siftLoop seq pairs s).any_moved = true := by
  intro pairs
  induction pairs with
  | nil => intro s h; exact h
  | cons p rest ih =>
    intro s h
    obtain ⟨ind, i⟩ := p
    simp only [siftLoop]
    split
    · exact ih _ (siftStep_moved _ _ _ _ h)
    · exact ih s h

theorem siftLoop_cells (P : Int → Prop) (hPd : ∀ v, P v → P (v * 2))
    (seq : List Nat) :
    ∀ (pairs : List (Nat × Nat)) (s : SiftState),
      (∀ x ∈ s.squares, x = -1 ∨ x = 0 ∨ P x) →
      ∀ x ∈ (siftLoop seq pairs s).squares, x = -1 ∨ x = 0 ∨ P x := by
  intro pairs
  induction pairs with
  | nil => intro s hok; exact hok
  | cons p rest ih =>
    intro s hok
    obtain ⟨ind, i⟩ := p
    simp only [siftLoop]
    split
    · rename_i hnz
      refine ih _ (siftStep_cells P hPd _ _ _ _ ?_ hok)
      have hmem : s.squares.getD i 0 ∈ s.squares :=
        getD_mem s.squares i (lt_length_of_getD_ne_zero _ _ hnz)
      exact hok _ hmem
    · exact ih s hok

theorem siftLoop_sentinels (seq : List Nat) :
    ∀ (pairs : List (Nat × Nat)) (s : SiftState) (W : List Nat),
      (∀ p ∈ pairs, p.2 ∈ W) → (∀ c ∈ seq, c ∈ W) →
      (∀ j, s.squares.getD j 0 = -1 → j ∈ W) →
      ∀ j, (siftLoop seq pairs s).squares.getD j 0 = -1 → j ∈ W := by
  intro pairs
  induction pairs with
  | nil => intro s W _ _ hs; exact hs
  | cons p rest ih =>
    intro s W hp hseq hs
    obtain ⟨ind, i⟩ := p
    simp only [siftLoop]
    split
    · refine ih _ W (fun p' hp' => hp p' (List.mem_cons_of_mem _ hp')) hseq
        (siftStep_sentinels _ _ _ _ W (hp (ind, i) (List.mem_cons_self _ _))
          (fun c hc =>
            hseq c (List.take_subset ind seq (List.mem_reverse.1 hc))) hs)
    · exact ih s W (fun p' hp' => hp p' (List.mem_cons_of_mem _ hp')) hseq hs

theorem siftLoop_score (seq : List Nat) :
    ∀ (pairs : List (Nat × Nat)) (s : SiftState),
      ∃ new, (siftLoop seq pairs s).merges = s.merges ++ new ∧
        (siftLoop seq pairs s).score = s.score + (new.map Prod.snd).sum ∧
        ∀ e ∈ new, 0 < e.2 := by
  intro pairs
  induction pairs with
  | nil => intro s; exact ⟨[], by simp [siftLoop], by simp [siftLoop], by simp⟩
  | cons p rest ih =>
    intro s
    obtain ⟨ind, i⟩ := p
    simp only [siftLoop]
    split
    · obtain ⟨n1, hm1, hs1, hp1⟩ := siftStep_score _ ((seq.take ind).reverse) i s
      obtain ⟨n2, hm2, hs2, hp2⟩ := ih (siftStep _ i ((seq.take ind).reverse) s)
      refine ⟨n1 ++ n2, ?_, ?_, ?_⟩
      · rw [hm2, hm1, List.append_assoc]
      · rw [hs2, hs1]
        simp [add_assoc]
      · intro e he
        rcases List.mem_append.1 he with h | h
        · exact hp1 e h
        · exact hp2 e h
    · exact ih s

/-! ### Double-write helpers and the positional scan invariant -/

theorem MergesOk_mono (seq : List Nat) (sq : List Int) (b1 b2 : Nat)
    (h : b1 ≤ b2) (ms : List (Nat × Int)) :
    MergesOk seq sq b1 ms → MergesOk seq sq b2 ms := by
  intro hm e he
  obtain ⟨t, h1, h2, h3, h4, h5⟩ := hm e he
  exact ⟨t, h1, h2, le_trans h3 h, h4, h5⟩

theorem getD_sets_fst (l : List Int) (c p : Nat) (a b : Int)
    (hc : c < l.length) (hne : p ≠ c) :
    ((l.set c a).set p b).getD c 0 = a := by
  rw [getD_set_ne _ _ _ _ hne, getD_set_self _ _ _ hc]

theorem getD_sets_snd (l : List Int) (c p : Nat) (a b : Int)
    (hp : p < l.length) :
    ((l.set c a).set p b).getD p 0 = b :=
  getD_set_self _ _ _ (by simpa using hp)

theorem getD_sets_other (l : List Int) (c p : Nat) (a b : Int) (j : Nat)
    (h1 : j ≠ c) (h2 : j ≠ p) :
    ((l.set c a).set p b).getD j 0 = l.getD j 0 := by
  rw [getD_set_ne _ _ _ _ (fun h => h2 h.symm),
    getD_set_ne _ _ _ _ (fun h => h1 h.symm)]

theorem cellSum_set2 (f : Int → Int) (l : List Int) (c p : Nat) (a b : Int)
    (hc : c < l.length) (hp : p < l.length) (hne : c ≠ p) :
    cellSum f ((l.set c a).set p b) =
      cellSum f l + (f a - f (l.getD c 0)) + (f b - f (l.getD p 0)) := by
  rw [cellSum_set f _ p (by simpa using hp) b, cellSum_set f l c hc a,
    getD_set_ne l c p a hne]
  ring

theorem linePot_set2 (sq : List Int) (seq : List Nat) (HN : seq.Nodup)
    (q1 q2 : Nat) (hq1 : q1 < seq.length) (hq2 : q2 < seq.length)
    (hne : q1 ≠ q2) (hc1 : seq.getD q1 0 < sq.length)
    (hc2 : seq.getD q2 0 < sq.length) (a b : Int) :
    linePot ((sq.set (seq.getD q1 0) a).set (seq.getD q2 0) b) seq =
      linePot sq seq + (1 + (q1 : Int)) * (occ a - occ (sq.getD (seq.getD q1 0) 0))
        + (1 + (q2 : Int)) * (occ b - occ (sq.getD (seq.getD q2 0) 0)) := by
  have hcell : seq.getD q1 0 ≠ seq.getD q2 0 :=
    fun h => hne (nodup_getD_inj seq HN q1 q2 hq1 hq2 h)
  unfold linePot
  rw [linePotFrom_set _ seq HN q2 hq2 (by simpa using hc2) b 1,
    linePotFrom_set sq seq HN q1 hq1 hc1 a 1,
    getD_set_ne sq _ _ a hcell]

theorem siftStep_master (seq : List Nat) (L : Nat)
    (HB : ∀ c ∈ seq, c < L) (HN : seq.Nodup) :
    ∀ (m : Nat) (s : SiftState) (slider : Int) (bnd : Nat),
      m ≤ bnd → bnd < seq.length → s.squares.length = L → 0 < slider →
      s.squares.getD (seq.getD m 0) 0 = slider →
      (∀ x ∈ s.squares, x = -1 ∨ 0 ≤ x) →
      MergesOk seq s.squares (m - 1) s.merges →
      (s.merges.map Prod.fst).Nodup →
      SentinelsOk seq s.squares bnd →
      ∀ r, r = siftStep slider (seq.getD m 0) ((seq.take m).reverse) s →
        MergesOk seq r.squares m r.merges ∧
        (r.merges.map Prod.fst).Nodup ∧
        SentinelsOk seq r.squares bnd ∧
        cellSum vis r.squares = cellSum vis s.squares ∧
        cellSum occ r.squares + (r.merges.length : Int) =
          cellSum occ s.squares + (s.merges.length : Int) ∧
        (r = s ∨ (linePot r.squares seq < linePot s.squares seq ∧
          r.any_moved = true)) := by
  intro m
  induction m with
  | zero =>
    intro s slider bnd _ _ _ _ _ _ hmerge hnd hsent r hr
    simp only [List.take_zero, List.reverse_nil, siftStep] at hr
    subst hr
    exact ⟨hmerge, hnd, hsent, rfl, rfl, Or.inl rfl⟩
  | succ m ih =>
    intro s slider bnd hmb hbl hL hsl hat hcells hmerge hnd hsent r hr
    have hm1l : m + 1 < seq.length := lt_of_le_of_lt hmb hbl
    have hml : m < seq.length := by omega
    have hcmem : seq.getD m 0 ∈ seq := natGetD_mem seq m hml
    have hpmem : seq.getD (m + 1) 0 ∈ seq := natGetD_mem seq (m + 1) hm1l
    have hcL : seq.getD m 0 < L := HB _ hcmem
    have hpL : seq.getD (m + 1) 0 < L := HB _ hpmem
    have hpc : seq.getD (m + 1) 0 ≠ seq.getD m 0 := fun h => by
      have := nodup_getD_inj seq HN (m + 1) m hm1l hml h
      omega
    have hcLen : seq.getD m 0 < s.squares.length := by rw [hL]; exact hcL
    have hpLen : seq.getD (m + 1) 0 < s.squares.length := by rw [hL]; exact hpL
    rw [take_reverse_cons seq m hml] at hr
    simp only [siftStep] at hr
    -- cell position facts usable in every branch
    have hcellt : ∀ t, t < m → seq.getD t 0 ≠ seq.getD m 0 := by
      intro t ht h
      have := nodup_getD_inj seq HN t m (by omega) hml h
      omega
    have hcellt1 : ∀ t, t < m + 1 → seq.getD t 0 ≠ seq.getD (m + 1) 0 := by
      intro t ht h
      have := nodup_getD_inj seq HN t (m + 1) (by omega) hm1l h
      omega
    by_cases h1 : s.squares.getD (seq.getD m 0) 0 ≤ 0
    · rw [if_pos h1] at hr
      -- facts about the double write (slide)
      have hsq'c : (((s.squares.set (seq.getD m 0) slider).set
          (seq.getD (m + 1) 0) 0)).getD (seq.getD m 0) 0 = slider :=
        getD_sets_fst _ _ _ _ _ hcLen hpc
      have hsq'p : (((s.squares.set (seq.getD m 0) slider).set
          (seq.getD (m + 1) 0) 0)).getD (seq.getD (m + 1) 0) 0 = 0 :=
        getD_sets_snd _ _ _ _ _ hpLen
      have hsq'o : ∀ j, j ≠ seq.getD m 0 → j ≠ seq.getD (m + 1) 0 →
          (((s.squares.set (seq.getD m 0) slider).set
            (seq.getD (m + 1) 0) 0)).getD j 0 = s.squares.getD j 0 :=
        fun j hj1 hj2 => getD_sets_other _ _ _ _ _ j hj1 hj2
      have hsq'len : (((s.squares.set (seq.getD m 0) slider).set
          (seq.getD (m + 1) 0) 0)).length = L := by
        simp [List.length_set, hL]
      have hsq'cells : ∀ x ∈ ((s.squares.set (seq.getD m 0) slider).set
          (seq.getD (m + 1) 0) 0), x = -1 ∨ 0 ≤ x := by
        intro x hx
        rcases mem_of_mem_set _ _ _ _ hx with hx1 | hx1
        · rcases mem_of_mem_set _ _ _ _ hx1 with hx0 | hx0
          · exact hcells x hx0
          · subst hx0; omega
        · subst hx1; omega
      have hsq'sent : SentinelsOk seq ((s.squares.set (seq.getD m 0) slider).set
          (seq.getD (m + 1) 0) 0) bnd := by
        intro j hj
        by_cases hjc : j = seq.getD m 0
        · subst hjc; rw [hsq'c] at hj; omega
        · by_cases hjp : j = seq.getD (m + 1) 0
          · subst hjp; rw [hsq'p] at hj; omega
          · rw [hsq'o j hjc hjp] at hj
            exact hsent j hj
      have hvis0 : cellSum vis ((s.squares.set (seq.getD m 0) slider).set
          (seq.getD (m + 1) 0) 0) = cellSum vis s.squares := by
        rw [cellSum_set2 vis s.squares _ _ _ _ hcLen hpLen (fun h => hpc h.symm)]
        rw [hat, vis_of_nonpos _ h1, vis_of_pos slider hsl]
        simp [vis]
      have hocc0 : cellSum occ ((s.squares.set (seq.getD m 0) slider).set
          (seq.getD (m + 1) 0) 0) = cellSum occ s.squares := by
        rw [cellSum_set2 occ s.squares _ _ _ _ hcLen hpLen (fun h => hpc h.symm)]
        rw [hat, occ_of_nonpos _ h1, occ_of_pos slider hsl]
        simp [occ]
      have hpot0 : linePot ((s.squares.set (seq.getD m 0) slider).set
          (seq.getD (m + 1) 0) 0) seq = linePot s.squares seq - 1 := by
        rw [linePot_set2 s.squares seq HN m (m + 1) hml hm1l (by omega)
          hcLen hpLen slider 0]
        rw [hat, occ_of_nonpos _ h1, occ_of_pos slider hsl]
        simp only [occ]
        norm_num
        ring
      by_cases h2 : s.squares.getD (seq.getD m 0) 0 = -1
      · rw [if_pos h2] at hr
        subst hr
        refine ⟨?_, hnd, hsq'sent, hvis0, by simpa using hocc0, Or.inr ⟨by
          rw [hpot0]; omega, rfl⟩⟩
        -- MergesOk is preserved by the slide
        intro e he
        obtain ⟨t, ht1, ht2, ht3, ht4, ht5⟩ := hmerge e he
        have ht3' : t + 1 ≤ m := by omega
        refine ⟨t, ht1, ht2, by omega, ?_, ?_⟩
        · rw [hsq'o _ (hcellt t (by omega)) (hcellt1 t (by omega))]
          exact ht4
        · by_cases he1 : t + 1 = m
          · rw [he1, hsq'c]; omega
          · rw [hsq'o _ (hcellt (t + 1) (by omega)) (hcellt1 (t + 1) (by omega))]
            exact ht5
      · rw [if_neg h2] at hr
        -- the target must be exactly 0
        have ht0 : s.squares.getD (seq.getD m 0) 0 = 0 := by
          have hmem : s.squares.getD (seq.getD m 0) 0 ∈ s.squares :=
            getD_mem _ _ hcLen
          rcases hcells _ hmem with h | h
          · exact absurd h h2
          · omega
        -- recursive slide: apply the induction hypothesis
        have hmerge' : MergesOk seq ((s.squares.set (seq.getD m 0) slider).set
            (seq.getD (m + 1) 0) 0) (m - 1) s.merges := by
          intro e he
          obtain ⟨t, ht1, ht2, ht3, ht4, ht5⟩ := hmerge e he
          have ht3' : t + 1 ≤ m := by omega
          have hne1 : t + 1 ≠ m := by
            intro hc
            rw [hc] at ht5
            exact ht5 ht0
          refine ⟨t, ht1, ht2, by omega, ?_, ?_⟩
          · rw [hsq'o _ (hcellt t (by omega)) (hcellt1 t (by omega))]
            exact ht4
          · rw [hsq'o _ (hcellt (t + 1) (by omega)) (hcellt1 (t + 1) (by omega))]
            exact ht5
        obtain ⟨hA, hB, hC, hD, hE, hF⟩ := ih
          { s with squares := ((s.squares.set (seq.getD m 0) slider).set
              (seq.getD (m + 1) 0) 0), any_moved := true }
          slider bnd (by omega) hbl hsq'len hsl hsq'c hsq'cells hmerge' hnd
          hsq'sent r hr
        refine ⟨MergesOk_mono seq r.squares m (m + 1) (by omega) r.merges hA,
          hB, hC, by rw [hD]; exact hvis0, by rw [hE]; simpa using hocc0, ?_⟩
        rcases hF with hF | hF
        · subst hF
          exact Or.inr ⟨by simp only; rw [hpot0]; omega, rfl⟩
        · refine Or.inr ⟨?_, hF.2⟩
          have := hF.1
          simp only at this
          rw [hpot0] at this
          omega
    · rw [if_neg h1] at hr
      by_cases h3 : s.squares.getD (seq.getD m 0) 0 = slider
      · rw [if_pos h3] at hr
        -- merge branch
        have hsq'c : (((s.squares.set (seq.getD m 0) (slider * 2)).set
            (seq.getD (m + 1) 0) (-1))).getD (seq.getD m 0) 0 = slider * 2 :=
          getD_sets_fst _ _ _ _ _ hcLen hpc
        have hsq'p : (((s.squares.set (seq.getD m 0) (slider * 2)).set
            (seq.getD (m + 1) 0) (-1))).getD (seq.getD (m + 1) 0) 0 = -1 :=
          getD_sets_snd _ _ _ _ _ hpLen
        have hsq'o : ∀ j, j ≠ seq.getD m 0 → j ≠ seq.getD (m + 1) 0 →
            (((s.squares.set (seq.getD m 0) (slider * 2)).set
              (seq.getD (m + 1) 0) (-1))).getD j 0 = s.squares.getD j 0 :=
          fun j hj1 hj2 => getD_sets_other _ _ _ _ _ j hj1 hj2
        subst hr
        refine ⟨?_, ?_, ?_, ?_, ?_, ?_⟩
        · -- MergesOk with the new entry
          intro e he
          simp only at he
          rcases List.mem_append.1 he with he | he
          · obtain ⟨t, ht1, ht2, ht3, ht4, ht5⟩ := hmerge e he
            have ht3' : t + 1 ≤ m := by omega
            refine ⟨t, ht1, ht2, by omega, ?_, ?_⟩
            · rw [hsq'o _ (hcellt t (by omega)) (hcellt1 t (by omega))]
              exact ht4
            · by_cases he1 : t + 1 = m
              · rw [he1, hsq'c]; omega
              · rw [hsq'o _ (hcellt (t + 1) (by omega))
                  (hcellt1 (t + 1) (by omega))]
                exact ht5
          · simp only [List.mem_singleton] at he
            subst he
            refine ⟨m, hm1l, rfl, le_refl _, ?_, ?_⟩
            · rw [hsq'c]; omega
            · rw [hsq'p]; omega
        · -- Nodup of the extended log
          simp only [List.map_append, List.map_cons, List.map_nil]
          rw [List.nodup_append]
          refine ⟨hnd, List.nodup_singleton _, ?_⟩
          intro a ha hb
          simp only [List.mem_singleton] at hb
          subst hb
          obtain ⟨e, he, he1⟩ := List.mem_map.1 ha
          obtain ⟨t, ht1, ht2, ht3, _, _⟩ := hmerge e he
          rw [he1] at ht2
          have := nodup_getD_inj seq HN t m (by omega) hml ht2
          omega
        · -- sentinels: the new one sits at position m + 1 ≤ bnd
          intro j hj
          by_cases hjc : j = seq.getD m 0
          · subst hjc
            rw [hsq'c] at hj
            omega
          · by_cases hjp : j = seq.getD (m + 1) 0
            · subst hjp
              exact ⟨m + 1, hm1l, rfl, by omega⟩
            · rw [hsq'o j hjc hjp] at hj
              exact hsent j hj
        · simp only
          rw [cellSum_set2 vis s.squares _ _ _ _ hcLen hpLen
            (fun h => hpc h.symm)]
          rw [hat, h3, vis_of_pos slider hsl, vis_of_pos _ (by omega),
            vis_of_nonpos (-1) (by omega)]
          ring
        · simp only
          rw [cellSum_set2 occ s.squares _ _ _ _ hcLen hpLen
            (fun h => hpc h.symm)]
          rw [hat, h3, occ_of_pos slider hsl, occ_of_pos _ (by omega),
            occ_of_nonpos (-1) (by omega)]
          simp only [List.length_append, List.length_cons, List.length_nil]
          push_cast
          ring
        · refine Or.inr ⟨?_, rfl⟩
          simp only
          rw [linePot_set2 s.squares seq HN m (m + 1) hml hm1l (by omega)
            hcLen hpLen (slider * 2) (-1)]
          rw [hat, h3, occ_of_pos slider hsl, occ_of_pos _ (by omega),
            occ_of_nonpos (-1) (by omega)]
          have : (0 : Int) ≤ m := by positivity
          nlinarith
      · rw [if_neg h3] at hr
        rw [hr]
        exact ⟨MergesOk_mono seq s.squares m (m + 1) (by omega) s.merges
            (MergesOk_mono seq s.squares (m + 1 - 1) m (by omega) s.merges
              hmerge),
          hnd, hsent, rfl, rfl, Or.inl rfl⟩

theorem siftLoop_master (seq : List Nat) (L : Nat)
    (HB : ∀ c ∈ seq, c < L) (HN : seq.Nodup) :
    ∀ (fuel ind : Nat), seq.length ≤ ind + fuel →
      ∀ s : SiftState,
      s.squares.length = L →
      (∀ x ∈ s.squares, x = -1 ∨ 0 ≤ x) →
      (∀ e ∈ s.merges, ∃ t, t + 1 < seq.length ∧ seq.getD t 0 = e.1 ∧
        t + 1 < ind ∧ 0 < s.squares.getD (seq.getD t 0) 0 ∧
        s.squares.getD (seq.getD (t + 1) 0) 0 ≠ 0) →
      (s.merges.map Prod.fst).Nodup →
      (∀ j, s.squares.getD j 0 = -1 → ∃ p, p < seq.length ∧
        seq.getD p 0 = j ∧ p < ind) →
      ∀ f, f = siftLoop seq (List.enumFrom ind (seq.drop ind)) s →
        (∀ j, f.squares.getD j 0 = -1 → j ∈ seq) ∧
        (f.merges.map Prod.fst).Nodup ∧
        cellSum vis f.squares = cellSum vis s.squares ∧
        cellSum occ f.squares + (f.merges.length : Int) =
          cellSum occ s.squares + (s.merges.length : Int) ∧
        (f = s ∨ (linePot f.squares seq < linePot s.squares seq ∧
          f.any_moved = true)) := by
  intro fuel
  induction fuel with
  | zero =>
    intro ind hind s hL hcells hmerge hnd hsent f hf
    rw [List.drop_eq_nil_of_le (by omega), List.enumFrom_nil] at hf
    simp only [siftLoop] at hf
    subst hf
    refine ⟨?_, hnd, rfl, rfl, Or.inl rfl⟩
    intro j hj
    obtain ⟨p, hp1, hp2, _⟩ := hsent j hj
    exact hp2 ▸ natGetD_mem seq p hp1
  | succ fuel ih =>
    intro ind hind s hL hcells hmerge hnd hsent f hf
    by_cases hil : ind < seq.length
    · have hget : seq[ind] = seq.getD ind 0 := by
        rw [List.getD_eq_getElem?_getD, List.getElem?_eq_getElem hil]
        rfl
      rw [List.drop_eq_getElem_cons hil, hget, List.enumFrom_cons] at hf
      simp only [siftLoop] at hf
      by_cases hz : s.squares.getD (seq.getD ind 0) 0 ≠ 0
      · rw [if_pos hz] at hf
        -- the slider is a positive tile
        have hcLen : seq.getD ind 0 < s.squares.length := by
          rw [hL]; exact HB _ (natGetD_mem seq ind hil)
        have hslpos : 0 < s.squares.getD (seq.getD ind 0) 0 := by
          rcases hcells _ (getD_mem _ _ hcLen) with h | h
          · exfalso
            obtain ⟨p, hp1, hp2, hp3⟩ := hsent _ h
            have := nodup_getD_inj seq HN p ind hp1 hil hp2
            omega
          · omega
        obtain ⟨hA, hB, hC, hD, hE, hF⟩ :=
          siftStep_master seq L HB HN ind s
            (s.squares.getD (seq.getD ind 0) 0) ind le_rfl hil hL hslpos rfl
            hcells
            (by
              intro e he
              obtain ⟨t, h1, h2, h3, h4, h5⟩ := hmerge e he
              exact ⟨t, h1, h2, by omega, h4, h5⟩)
            hnd
            (by
              intro j hj
              obtain ⟨p, hp1, hp2, hp3⟩ := hsent j hj
              exact ⟨p, hp1, hp2, by omega⟩)
            _ rfl
        set r1 := siftStep (s.squares.getD (seq.getD ind 0) 0)
          (seq.getD ind 0) ((seq.take ind).reverse) s with hr1
        obtain ⟨hA', hB', hD', hE', hF'⟩ :=
          ih (ind + 1) (by omega) r1
            (by rw [hr1, siftStep_length]; exact hL)
            (by
              refine fun x hx => ?_
              have := siftStep_cells (fun v => 0 < v)
                (fun v hv => by omega)
                (s.squares.getD (seq.getD ind 0) 0)
                ((seq.take ind).reverse) (seq.getD ind 0) s
                (Or.inr (Or.inr hslpos))
                (by
                  intro y hy
                  rcases hcells y hy with h | h
                  · exact Or.inl h
                  · rcases eq_or_lt_of_le h with h' | h'
                    · exact Or.inr (Or.inl h'.symm)
                    · exact Or.inr (Or.inr h'))
                x hx
              rcases this with h | h | h
              · exact Or.inl h
              · omega
              · omega)
            (by
              intro e he
              obtain ⟨t, h1, h2, h3, h4, h5⟩ := hA e he
              exact ⟨t, h1, h2, by omega, h4, h5⟩)
            hB
            (by
              intro j hj
              obtain ⟨p, hp1, hp2, hp3⟩ := hC j hj
              exact ⟨p, hp1, hp2, by omega⟩)
            f hf
        refine ⟨hA', hB', by rw [hD']; exact hD, ?_, ?_⟩
        · rw [hE']
          omega
        · rcases hF' with h | h
          · rcases hF with h2 | h2
            · exact Or.inl (h.trans h2)
            · refine Or.inr ⟨?_, ?_⟩
              · rw [h]; exact h2.1
              · rw [h]; exact h2.2
          · rcases hF with h2 | h2
            · refine Or.inr ⟨?_, h.2⟩
              rw [h2] at h
              exact h.1
            · exact Or.inr ⟨lt_trans h.1 h2.1, h.2⟩
      · rw [if_neg hz] at hf
        obtain ⟨hA', hB', hC', hD', hE'⟩ :=
          ih (ind + 1) (by omega) s hL hcells
            (by
              intro e he
              obtain ⟨t, h1, h2, h3, h4, h5⟩ := hmerge e he
              exact ⟨t, h1, h2, by omega, h4, h5⟩)
            hnd
            (by
              intro j hj
              obtain ⟨p, hp1, hp2, hp3⟩ := hsent j hj
              exact ⟨p, hp1, hp2, by omega⟩)
            f hf
        exact ⟨hA', hB', hC', hD', hE'⟩
    · rw [List.drop_eq_nil_of_le (by omega), List.enumFrom_nil] at hf
      simp only [siftLoop] at hf
      subst hf
      refine ⟨?_, hnd, rfl, rfl, Or.inl rfl⟩
      intro j hj
      obtain ⟨p, hp1, hp2, _⟩ := hsent j hj
      exact hp2 ▸ natGetD_mem seq p hp1

/-! ### Cleanup pass lemmas -/

theorem cleanup_getD :
    ∀ (seq : List Nat) (sq : List Int) (j : Nat),
      (cleanup seq sq).getD j 0 =
        if sq.getD j 0 = -1 ∧ j ∈ seq then 0 else sq.getD j 0 := by
  intro seq
  induction seq with
  | nil => intro sq j; simp [cleanup]
  | cons c rest ih =>
    intro sq j
    show (cleanup rest (if sq.getD c 0 = -1 then sq.set c 0 else sq)).getD j 0
      = _
    by_cases hc : sq.getD c 0 = -1
    · rw [if_pos hc]
      have hcl : c < sq.length :=
        lt_length_of_getD_ne_zero sq c (by rw [hc]; omega)
      rw [ih]
      by_cases hjc : j = c
      · subst hjc
        rw [getD_set_self sq j 0 hcl]
        rw [if_neg (by rintro ⟨h0, _⟩; norm_num at h0),
          if_pos ⟨hc, List.mem_cons_self j rest⟩]
      · rw [getD_set_ne sq c j 0 (fun h => hjc h.symm)]
        have hmem : (j ∈ c :: rest) ↔ (j ∈ rest) := by
          rw [List.mem_cons]
          exact ⟨fun h => h.resolve_left hjc, Or.inr⟩
        by_cases hcond : sq.getD j 0 = -1 ∧ j ∈ rest
        · rw [if_pos hcond, if_pos ⟨hcond.1, hmem.2 hcond.2⟩]
        · rw [if_neg hcond, if_neg (fun hx => hcond ⟨hx.1, hmem.1 hx.2⟩)]
    · rw [if_neg hc]
      rw [ih]
      by_cases hjc : j = c
      · subst hjc
        rw [if_neg (fun hx => hc hx.1), if_neg (fun hx => hc hx.1)]
      · have hmem : (j ∈ c :: rest) ↔ (j ∈ rest) := by
          rw [List.mem_cons]
          exact ⟨fun h => h.resolve_left hjc, Or.inr⟩
        by_cases hcond : sq.getD j 0 = -1 ∧ j ∈ rest
        · rw [if_pos hcond, if_pos ⟨hcond.1, hmem.2 hcond.2⟩]
        · rw [if_neg hcond, if_neg (fun hx => hcond ⟨hx.1, hmem.1 hx.2⟩)]

theorem cleanup_length :
    ∀ (seq : List Nat) (sq : List Int),
      (cleanup seq sq).length = sq.length := by
  intro seq
  induction seq with
  | nil => intro sq; rfl
  | cons c rest ih =>
    intro sq
    show (cleanup rest (if sq.getD c 0 = -1 then sq.set c 0 else sq)).length = _
    rw [ih]
    split <;> simp [List.length_set]

theorem cleanup_cellSum (f : Int → Int) (hf : f 0 = f (-1)) :
    ∀ (seq : List Nat) (sq : List Int),
      cellSum f (cleanup seq sq) = cellSum f sq := by
  intro seq
  induction seq with
  | nil => intro sq; rfl
  | cons c rest ih =>
    intro sq
    show cellSum f (cleanup rest (if sq.getD c 0 = -1 then sq.set c 0 else sq))
      = _
    rw [ih]
    by_cases hc : sq.getD c 0 = -1
    · rw [if_pos hc]
      have hcl : c < sq.length :=
        lt_length_of_getD_ne_zero sq c (by rw [hc]; omega)
      rw [cellSum_set f sq c hcl 0, hc, hf]
      ring
    · rw [if_neg hc]

theorem cleanup_occ_getD (seq : List Nat) (sq : List Int) (j : Nat) :
    occ ((cleanup seq sq).getD j 0) = occ (sq.getD j 0) := by
  rw [cleanup_getD seq sq j]
  split
  · rename_i h
    rw [h.1]
    rfl
  · rfl

theorem cleanup_linePot (seq seq' : List Nat) (sq : List Int) :
    linePot (cleanup seq sq) seq' = linePot sq seq' :=
  linePotFrom_congr _ _ seq' (fun c _ => cleanup_occ_getD seq sq c) 1

theorem cleanup_id (seq : List Nat) (sq : List Int)
    (h : ∀ j, sq.getD j 0 ≠ -1) : cleanup seq sq = sq := by
  induction seq with
  | nil => rfl
  | cons c rest ih =>
    show cleanup rest (if sq.getD c 0 = -1 then sq.set c 0 else sq) = sq
    rw [if_neg (h c)]
    exact ih

theorem mem_iff_getD (l : List Int) (x : Int) :
    x ∈ l ↔ ∃ j, j < l.length ∧ l.getD j 0 = x := by
  rw [List.mem_iff_getElem]
  constructor
  · rintro ⟨n, hn, hx⟩
    refine ⟨n, hn, ?_⟩
    rw [List.getD_eq_getElem?_getD, List.getElem?_eq_getElem hn]
    exact hx
  · rintro ⟨j, hj, hx⟩
    refine ⟨j, hj, ?_⟩
    rw [List.getD_eq_getElem?_getD, List.getElem?_eq_getElem hj] at hx
    exact hx

theorem enumFrom_snd_mem (l : List Nat) :
    ∀ (n : Nat) (p : Nat × Nat), p ∈ l.enumFrom n → p.2 ∈ l := by
  induction l with
  | nil => intro n p h; simp at h
  | cons x t ih =>
    intro n p h
    rw [List.enumFrom_cons] at h
    rcases List.mem_cons.1 h with h1 | h1
    · subst h1; exact List.mem_cons_self _ _
    · exact List.mem_cons_of_mem _ (ih (n + 1) p h1)

theorem siftLoop_untouched (seq : List Nat) :
    ∀ (pairs : List (Nat × Nat)) (s : SiftState) (j : Nat),
      j ∉ seq → (∀ p ∈ pairs, p.2 ≠ j) →
      (siftLoop seq pairs s).squares.getD j 0 = s.squares.getD j 0 := by
  intro pairs
  induction pairs with
  | nil => intro s j _ _; rfl
  | cons p rest ih =>
    intro s j hj hp
    obtain ⟨ind, i⟩ := p
    simp only [siftLoop]
    split
    · rw [ih _ j hj (fun p' hp' => hp p' (List.mem_cons_of_mem _ hp'))]
      refine siftStep_untouched _ _ _ _ j ?_
      intro hmem
      rcases List.mem_cons.1 hmem with h1 | h1
      · exact hp (ind, i) (List.mem_cons_self _ _) h1.symm
      · exact hj (List.take_subset ind seq (List.mem_reverse.1 h1))
    · exact ih s j hj (fun p' hp' => hp p' (List.mem_cons_of_mem _ hp'))

/-- The packaged description of one `TFEBoard.sift` call on a clean board
(cells are 0 or `P`-tiles, line indices in bounds and distinct):
lengths and off-line cells are preserved, cells stay clean, the visible
sum is conserved, the occupancy drops by exactly the number of logged
merges, the score increases by exactly the logged amounts (all positive),
no cell is a merge target twice, and the call either reports `false` and
is a complete no-op, or reports `true` and strictly decreases the line's
positional potential. -/
theorem sift_master (P : Int → Prop) (hPpos : ∀ v, P v → 0 < v)
    (hPd : ∀ v, P v → P (v * 2))
    (b : TFEBoard) (seq : List Nat)
    (HB : ∀ c ∈ seq, c < b.squares.length) (HN : seq.Nodup)
    (hin : ∀ x ∈ b.squares, x = 0 ∨ P x) :
    ((b.sift seq).1.squares.length = b.squares.length) ∧
    (∀ x ∈ (b.sift seq).1.squares, x = 0 ∨ P x) ∧
    (∀ j, j ∉ seq → (b.sift seq).1.squares.getD j 0 = b.squares.getD j 0) ∧
    (cellSum vis (b.sift seq).1.squares = cellSum vis b.squares) ∧
    (cellSum occ (b.sift seq).1.squares + ((b.siftMerges seq).length : Int) =
      cellSum occ b.squares) ∧
    ((b.sift seq).1.score = b.score + ((b.siftMerges seq).map Prod.snd).sum) ∧
    (∀ e ∈ b.siftMerges seq, 0 < e.2) ∧
    (((b.siftMerges seq).map Prod.fst).Nodup) ∧
    ((b.sift seq).1.n = b.n) ∧
    (((b.sift seq).2 = false ∧ (b.sift seq).1 = b) ∨
      ((b.sift seq).2 = true ∧
        linePot (b.sift seq).1.squares seq < linePot b.squares seq)) := by
  have hnosent : ∀ j, b.squares.getD j 0 ≠ -1 := by
    intro j hj
    by_cases hl : j < b.squares.length
    · rcases hin _ (getD_mem _ _ hl) with h | h
      · rw [hj] at h; norm_num at h
      · have := hPpos _ h
        rw [hj] at this
        omega
    · rw [getD_eq_zero_of_le _ _ (by omega)] at hj
      norm_num at hj
  have henum : seq.enum = List.enumFrom 0 (seq.drop 0) := by
    rw [List.drop_zero]
    rfl
  obtain ⟨hS, hN2, hV, hO, hDj⟩ :=
    siftLoop_master seq b.squares.length HB HN seq.length 0 (by omega)
      ⟨b.squares, b.score, false, []⟩ rfl
      (by
        intro x hx
        rcases hin x hx with h | h
        · omega
        · have := hPpos x h
          omega)
      (by intro e he; simp at he)
      (by simp)
      (by
        intro j hj
        exact absurd hj (hnosent j))
      (siftLoop seq seq.enum ⟨b.squares, b.score, false, []⟩)
      (by rw [henum])
  set f := siftLoop seq seq.enum ⟨b.squares, b.score, false, []⟩ with hfdef
  have hflen : f.squares.length = b.squares.length :=
    siftLoop_length seq seq.enum _
  have hfcells : ∀ x ∈ f.squares, x = -1 ∨ x = 0 ∨ P x := by
    refine siftLoop_cells P hPd seq seq.enum _ ?_
    intro x hx
    rcases hin x hx with h | h
    · exact Or.inr (Or.inl h)
    · exact Or.inr (Or.inr h)
  obtain ⟨new, hnew1, hnew2, hnew3⟩ := siftLoop_score seq seq.enum
    ⟨b.squares, b.score, false, []⟩
  rw [← hfdef] at hnew1 hnew2
  have hnew : f.merges = new := by simpa using hnew1
  have hfscore : f.score = b.score + (new.map Prod.snd).sum := by
    simpa using hnew2
  have hmergesdef : b.siftMerges seq = f.merges := rfl
  have hsift1 : (b.sift seq).1 =
      { b with squares := cleanup seq f.squares, score := f.score } := rfl
  have hsift2 : (b.sift seq).2 = f.any_moved := rfl
  have hclen : (cleanup seq f.squares).length = b.squares.length := by
    rw [cleanup_length, hflen]
  refine ⟨?_, ?_, ?_, ?_, ?_, ?_, ?_, ?_, ?_, ?_⟩
  · rw [hsift1]; exact hclen
  · rw [hsift1]
    intro x hx
    simp only at hx
    obtain ⟨j, hj, hjx⟩ := (mem_iff_getD _ x).1 hx
    rw [cleanup_getD] at hjx
    by_cases hcond : f.squares.getD j 0 = -1 ∧ j ∈ seq
    · rw [if_pos hcond] at hjx
      exact Or.inl hjx.symm
    · rw [if_neg hcond] at hjx
      have hjlen : j < f.squares.length := by
        rw [hflen]; rw [hclen] at hj; exact hj
      rcases hfcells _ (hjx ▸ getD_mem f.squares j hjlen) with h | h | h
      · exfalso
        exact hcond ⟨hjx ▸ h, hS j (hjx ▸ h)⟩
      · exact Or.inl h
      · exact Or.inr h
  · rw [hsift1]
    intro j hj
    simp only
    rw [cleanup_getD]
    rw [if_neg (fun hx => hj hx.2)]
    refine siftLoop_untouched seq seq.enum _ j hj ?_
    intro p hp
    intro hpj
    exact hj (hpj ▸ enumFrom_snd_mem seq 0 p hp)
  · rw [hsift1]
    simp only
    rw [cleanup_cellSum vis rfl]
    exact hV
  · rw [hsift1, hmergesdef]
    simp only
    rw [cleanup_cellSum occ rfl]
    simpa using hO
  · rw [hsift1, hmergesdef]
    simp only
    rw [hfscore, hnew]
  · rw [hmergesdef, hnew]
    intro e he
    exact (hnew3 e he)
  · rw [hmergesdef]
    exact hN2
  · rw [hsift1]
  · rcases hDj with h | h
    · refine Or.inl ⟨by rw [hsift2, h], ?_⟩
      rw [hsift1, h]
      simp only
      rw [cleanup_id seq b.squares hnosent]
    · refine Or.inr ⟨by rw [hsift2, h.2], ?_⟩
      rw [hsift1]
      simp only
      rw [cleanup_linePot]
      exact h.1

/-- C2: for every board whose cells are all 0 or powers of 2 and every
line of distinct in-bounds indices, after one `sift` call every cell is
again 0 or a power of 2 (every internal `-1` "consumed" sentinel has been
cleared by the final pass and is never visible to the caller), and no cell
is the target of more than one merge within the call — merged tiles never
move again (only cells at strictly larger line positions are processed
later), so a tile created by a merge is never doubled again in the same
call. -/
theorem c2_sift_pow2_and_no_double_merge (b : TFEBoard) (seq : List Nat)
    (HB : ∀ c ∈ seq, c < b.squares.length) (HN : seq.Nodup)
    (hin : ∀ x ∈ b.squares, x = 0 ∨ IsPow2 x) :
    (∀ x ∈ (b.sift seq).1.squares, x = 0 ∨ IsPow2 x) ∧
    ((b.siftMerges seq).map Prod.fst).Nodup := by
  have h := sift_master IsPow2
    (fun v hv => by obtain ⟨k, rfl⟩ := hv; positivity)
    (fun v hv => by obtain ⟨k, rfl⟩ := hv; exact ⟨k + 1, by ring⟩)
    b seq HB HN hin
  exact ⟨h.2.1, h.2.2.2.2.2.2.2.1⟩

/-- C2 witness on the spec's reference line. -/
theorem c2_witness :
    (∀ c ∈ ([0, 1, 2, 3] : List Nat),
      c < ([2, 2, 0, 2] : List Int).length) ∧
    ([0, 1, 2, 3] : List Nat).Nodup ∧
    (∀ x ∈ ([2, 2, 0, 2] : List Int), x = 0 ∨ IsPow2 x) ∧
    ((∀ x ∈ (TFEBoard.sift ⟨2, 0, [2, 2, 0, 2]⟩ [0, 1, 2, 3]).1.squares,
        x = 0 ∨ IsPow2 x) ∧
      ((TFEBoard.siftMerges ⟨2, 0, [2, 2, 0, 2]⟩ [0, 1, 2, 3]).map
        Prod.fst).Nodup) := by
  have hin : ∀ x ∈ ([2, 2, 0, 2] : List Int), x = 0 ∨ IsPow2 x := by
    intro x hx
    fin_cases hx
    · exact Or.inr ⟨1, by norm_num⟩
    · exact Or.inr ⟨1, by norm_num⟩
    · exact Or.inl rfl
    · exact Or.inr ⟨1, by norm_num⟩
  exact ⟨by decide, by decide, hin,
    c2_sift_pow2_and_no_double_merge ⟨2, 0, [2, 2, 0, 2]⟩ [0, 1, 2, 3]
      (by decide) (by decide) hin⟩

/-! ### The four direction line families -/

theorem up_seq_shape (n : Nat) (seq : List Nat) (h : seq ∈ up_seq n) :
    ∃ i, i < n ∧ seq = (List.range n).map (fun j => i + j * n) := by
  unfold up_seq at h
  obtain ⟨i, hi, hs⟩ := List.mem_map.1 h
  exact ⟨i, List.mem_range.1 hi, hs.symm⟩

theorem left_seq_shape (n : Nat) (seq : List Nat) (h : seq ∈ left_seq n) :
    ∃ r, r < n ∧ seq = (List.range n).map (fun j => r * n + j) := by
  unfold left_seq at h
  obtain ⟨r, hr, hs⟩ := List.mem_map.1 h
  exact ⟨r, List.mem_range.1 hr, hs.symm⟩

theorem up_cell_lt (n i j : Nat) (hi : i < n) (hj : j < n) :
    i + j * n < n ^ 2 := by
  have h1 : i + j * n < n + j * n := by omega
  have h2 : n + j * n = (j + 1) * n := by ring
  have h3 : (j + 1) * n ≤ n * n := Nat.mul_le_mul_right n (by omega)
  have h4 : n ^ 2 = n * n := sq n
  omega

theorem left_cell_lt (n r j : Nat) (hr : r < n) (hj : j < n) :
    r * n + j < n ^ 2 := by
  have h1 : r * n + j < r * n + n := by omega
  have h2 : r * n + n = (r + 1) * n := by ring
  have h3 : (r + 1) * n ≤ n * n := Nat.mul_le_mul_right n (by omega)
  have h4 : n ^ 2 = n * n := sq n
  omega

theorem up_seq_bounds (n : Nat) :
    ∀ seq ∈ up_seq n, ∀ c ∈ seq, c < n ^ 2 := by
  intro seq hs c hc
  obtain ⟨i, hi, rfl⟩ := up_seq_shape n seq hs
  obtain ⟨j, hj, rfl⟩ := List.mem_map.1 hc
  exact up_cell_lt n i j hi (List.mem_range.1 hj)

theorem left_seq_bounds (n : Nat) :
    ∀ seq ∈ left_seq n, ∀ c ∈ seq, c < n ^ 2 := by
  intro seq hs c hc
  obtain ⟨r, hr, rfl⟩ := left_seq_shape n seq hs
  obtain ⟨j, hj, rfl⟩ := List.mem_map.1 hc
  exact left_cell_lt n r j hr (List.mem_range.1 hj)

theorem up_seq_nodup (n : Nat) : ∀ seq ∈ up_seq n, seq.Nodup := by
  intro seq hs
  obtain ⟨i, hi, rfl⟩ := up_seq_shape n seq hs
  refine List.Nodup.map ?_ (List.nodup_range n)
  intro j1 j2 h
  simp only at h
  have hn : 0 < n := by omega
  have : j1 * n = j2 * n := by omega
  exact Nat.eq_of_mul_eq_mul_right hn this

theorem left_seq_nodup (n : Nat) : ∀ seq ∈ left_seq n, seq.Nodup := by
  intro seq hs
  obtain ⟨r, hr, rfl⟩ := left_seq_shape n seq hs
  refine List.Nodup.map ?_ (List.nodup_range n)
  intro j1 j2 h
  simp only at h
  omega

theorem up_seq_pairwise (n : Nat) :
    (up_seq n).Pairwise (fun s t => ∀ c ∈ s, c ∉ t) := by
  unfold up_seq
  rw [List.pairwise_map]
  refine List.Pairwise.imp_of_mem ?_ (List.pairwise_lt_range n)
  intro i1 i2 h1 h2 hlt c hc1 hc2
  obtain ⟨j1, _, rfl⟩ := List.mem_map.1 hc1
  obtain ⟨j2, _, he⟩ := List.mem_map.1 hc2
  have hi1 : i1 < n := List.mem_range.1 h1
  have hi2 : i2 < n := List.mem_range.1 h2
  have hmod : (i1 + j1 * n) % n = (i2 + j2 * n) % n := by rw [he]
  rw [Nat.add_mul_mod_self_right, Nat.add_mul_mod_self_right,
    Nat.mod_eq_of_lt hi1, Nat.mod_eq_of_lt hi2] at hmod
  omega

theorem left_seq_pairwise (n : Nat) :
    (left_seq n).Pairwise (fun s t => ∀ c ∈ s, c ∉ t) := by
  unfold left_seq
  rw [List.pairwise_map]
  refine List.Pairwise.imp_of_mem ?_ (List.pairwise_lt_range n)
  intro r1 r2 h1 h2 hlt c hc1 hc2
  obtain ⟨j1, hj1, rfl⟩ := List.mem_map.1 hc1
  obtain ⟨j2, hj2, he⟩ := List.mem_map.1 hc2
  have hjl1 : j1 < n := List.mem_range.1 hj1
  have hjl2 : j2 < n := List.mem_range.1 hj2
  have hd : (r1 + 1) * n = r1 * n + n := by ring
  have h3 : (r1 + 1) * n ≤ r2 * n := Nat.mul_le_mul_right n (by omega)
  omega

theorem dirSeqs_bounds (n : Nat) (d : Direction) :
    ∀ seq ∈ dirSeqs n d, ∀ c ∈ seq, c < n ^ 2 := by
  cases d <;> intro seq hs c hc
  · exact up_seq_bounds n seq hs c hc
  · obtain ⟨s0, hs0, rfl⟩ := List.mem_map.1 hs
    exact up_seq_bounds n s0 hs0 c (List.mem_reverse.1 hc)
  · exact left_seq_bounds n seq hs c hc
  · obtain ⟨s0, hs0, rfl⟩ := List.mem_map.1 hs
    exact left_seq_bounds n s0 hs0 c (List.mem_reverse.1 hc)

theorem dirSeqs_nodup (n : Nat) (d : Direction) :
    ∀ seq ∈ dirSeqs n d, seq.Nodup := by
  cases d <;> intro seq hs
  · exact up_seq_nodup n seq hs
  · obtain ⟨s0, hs0, rfl⟩ := List.mem_map.1 hs
    exact (List.nodup_reverse).2 (up_seq_nodup n s0 hs0)
  · exact left_seq_nodup n seq hs
  · obtain ⟨s0, hs0, rfl⟩ := List.mem_map.1 hs
    exact (List.nodup_reverse).2 (left_seq_nodup n s0 hs0)

theorem dirSeqs_pairwise (n : Nat) (d : Direction) :
    (dirSeqs n d).Pairwise (fun s t => ∀ c ∈ s, c ∉ t) := by
  cases d
  · exact up_seq_pairwise n
  · show ((up_seq n).map List.reverse).Pairwise _
    rw [List.pairwise_map]
    refine (up_seq_pairwise n).imp ?_
    intro s t h c hc1 hc2
    exact h c (List.mem_reverse.1 hc1) (List.mem_reverse.1 hc2)
  · exact left_seq_pairwise n
  · show ((left_seq n).map List.reverse).Pairwise _
    rw [List.pairwise_map]
    refine (left_seq_pairwise n).imp ?_
    intro s t h c hc1 hc2
    exact h c (List.mem_reverse.1 hc1) (List.mem_reverse.1 hc2)

theorem dirSeqs_length (n : Nat) (d : Direction) :
    (dirSeqs n d).length = n := by
  cases d <;>
    simp [dirSeqs, up_seq, down_seq, left_seq, right_seq]

/-! ### Unconditional score accounting and fold lemmas -/

theorem sift_score (b : TFEBoard) (seq : List Nat) :
    (b.sift seq).1.score = b.score + ((b.siftMerges seq).map Prod.snd).sum ∧
    (∀ e ∈ b.siftMerges seq, 0 < e.2) ∧ (b.sift seq).1.n = b.n ∧
    b.score ≤ (b.sift seq).1.score := by
  obtain ⟨new, h1, h2, h3⟩ := siftLoop_score seq seq.enum
    ⟨b.squares, b.score, false, []⟩
  have hm : b.siftMerges seq = new := by
    show (siftLoop seq seq.enum ⟨b.squares, b.score, false, []⟩).merges = new
    simpa using h1
  have hsc : (b.sift seq).1.score =
      (siftLoop seq seq.enum ⟨b.squares, b.score, false, []⟩).score := rfl
  refine ⟨?_, ?_, rfl, ?_⟩
  · rw [hsc, h2, hm]
  · rw [hm]; exact h3
  · rw [hsc, h2]
    have : 0 ≤ (new.map Prod.snd).sum :=
      List.sum_nonneg (by
        intro x hx
        obtain ⟨e, he, rfl⟩ := List.mem_map.1 hx
        exact le_of_lt (h3 e he))
    simp only
    omega

theorem foldl_sift_score :
    ∀ (seqs : List (List Nat)) (b : TFEBoard) (f0 : Bool),
      ∀ r, r = seqs.foldl (fun acc seq =>
          let t := acc.1.sift seq
          (t.1, t.2 || acc.2)) (b, f0) →
        r.1.score = b.score + ((foldMerges b seqs).map Prod.snd).sum ∧
        (∀ e ∈ foldMerges b seqs, 0 < e.2) ∧ r.1.n = b.n ∧
        b.score ≤ r.1.score := by
  intro seqs
  induction seqs with
  | nil =>
    intro b f0 r hr
    subst hr
    simp [foldMerges]
  | cons seq rest ih =>
    intro b f0 r hr
    obtain ⟨hs1, hs2, hs3, hs4⟩ := sift_score b seq
    obtain ⟨hr1, hr2, hr3, hr4⟩ := ih (b.sift seq).1 ((b.sift seq).2 || f0)
      r (by rw [hr]; rfl)
    have hfm : foldMerges b (seq :: rest) =
        b.siftMerges seq ++ foldMerges (b.sift seq).1 rest := rfl
    refine ⟨?_, ?_, ?_, ?_⟩
    · rw [hr1, hs1, hfm]
      simp [add_assoc]
    · rw [hfm]
      intro e he
      rcases List.mem_append.1 he with h | h
      · exact hs2 e h
      · exact hr2 e h
    · rw [hr3, hs3]
    · exact le_trans hs4 hr4

theorem dirPot_cons (sq : List Int) (seq : List Nat)
    (rest : List (List Nat)) :
    dirPot sq (seq :: rest) = linePot sq seq + dirPot sq rest := by
  simp [dirPot]

theorem linePot_congr (sq1 sq2 : List Int) (seq : List Nat)
    (h : ∀ c ∈ seq, sq1.getD c 0 = sq2.getD c 0) :
    linePot sq1 seq = linePot sq2 seq :=
  linePotFrom_congr sq1 sq2 seq (fun c hc => by rw [h c hc]) 1

theorem dirPot_congr (sq1 sq2 : List Int) (seqs : List (List Nat))
    (h : ∀ seq ∈ seqs, ∀ c ∈ seq, sq1.getD c 0 = sq2.getD c 0) :
    dirPot sq1 seqs = dirPot sq2 seqs := by
  induction seqs with
  | nil => rfl
  | cons seq rest ih =>
    rw [dirPot_cons, dirPot_cons,
      linePot_congr sq1 sq2 seq (h seq (List.mem_cons_self _ _)),
      ih (fun s hs => h s (List.mem_cons_of_mem _ hs))]

/-- The fold of `sift` over a family of pairwise-disjoint clean lines:
boards stay clean, visible sum is conserved, occupancy drops by the total
number of logged merges, off-line cells are untouched, and the fold is
either a complete no-op reporting `false` or reports `true` and strictly
decreases the direction potential. -/
theorem foldl_sift_master :
    ∀ (seqs : List (List Nat)) (L : Nat),
      (∀ seq ∈ seqs, ∀ c ∈ seq, c < L) →
      (∀ seq ∈ seqs, seq.Nodup) →
      seqs.Pairwise (fun s t => ∀ c ∈ s, c ∉ t) →
      ∀ (b : TFEBoard) (f0 : Bool),
        b.squares.length = L →
        (∀ x ∈ b.squares, 0 ≤ x) →
        ∀ r, r = seqs.foldl (fun acc seq =>
            let t := acc.1.sift seq
            (t.1, t.2 || acc.2)) (b, f0) →
          r.1.squares.length = L ∧
          (∀ x ∈ r.1.squares, 0 ≤ x) ∧
          (∀ j, (∀ seq ∈ seqs, j ∉ seq) →
            r.1.squares.getD j 0 = b.squares.getD j 0) ∧
          cellSum vis r.1.squares = cellSum vis b.squares ∧
          cellSum occ r.1.squares + ((foldMerges b seqs).length : Int) =
            cellSum occ b.squares ∧
          (r = (b, f0) ∨ (r.2 = true ∧
            dirPot r.1.squares seqs < dirPot b.squares seqs)) := by
  intro seqs
  induction seqs with
  | nil =>
    intro L _ _ _ b f0 hL hnn r hr
    subst hr
    exact ⟨hL, hnn, fun j _ => rfl, rfl, by simp [foldMerges], Or.inl rfl⟩
  | cons seq rest ih =>
    intro L hb hnd hpw b f0 hL hnn r hr
    have hbseq : ∀ c ∈ seq, c < b.squares.length := by
      rw [hL]; exact hb seq (List.mem_cons_self _ _)
    have hin : ∀ x ∈ b.squares, x = 0 ∨ 0 < x := by
      intro x hx
      rcases eq_or_lt_of_le (hnn x hx) with h | h
      · exact Or.inl h.symm
      · exact Or.inr h
    obtain ⟨m1, m2, m3, m4, m5, m6, m7, m8, m9, m10⟩ :=
      sift_master (fun v => 0 < v) (fun v hv => hv) (fun v hv => by omega)
        b seq hbseq (hnd seq (List.mem_cons_self _ _)) hin
    have hpwh : ∀ t ∈ rest, ∀ c ∈ seq, c ∉ t :=
      (List.pairwise_cons.1 hpw).1
    have hpwr : rest.Pairwise (fun s t => ∀ c ∈ s, c ∉ t) :=
      (List.pairwise_cons.1 hpw).2
    obtain ⟨r1, r2, r3, r4, r5, r6⟩ :=
      ih L (fun s hs => hb s (List.mem_cons_of_mem _ hs))
        (fun s hs => hnd s (List.mem_cons_of_mem _ hs)) hpwr
        (b.sift seq).1 ((b.sift seq).2 || f0)
        (by rw [m1, hL])
        (by
          intro x hx
          rcases m2 x hx with h | h
          · omega
          · omega)
        r (by rw [hr]; rfl)
    have hfm : foldMerges b (seq :: rest) =
        b.siftMerges seq ++ foldMerges (b.sift seq).1 rest := rfl
    -- cells of `seq` are untouched by the rest of the fold
    have hseq_untouched : ∀ c ∈ seq,
        r.1.squares.getD c 0 = (b.sift seq).1.squares.getD c 0 := by
      intro c hc
      exact r3 c (fun s hs hcs => hpwh s hs c hc hcs)
    -- lines of `rest` are untouched by the head sift
    have hrest_untouched : ∀ s ∈ rest, ∀ c ∈ s,
        (b.sift seq).1.squares.getD c 0 = b.squares.getD c 0 := by
      intro s hs c hc
      exact m3 c (fun hcs => hpwh s hs c hcs hc)
    refine ⟨r1, r2, ?_, ?_, ?_, ?_⟩
    · intro j hj
      rw [r3 j (fun s hs => hj s (List.mem_cons_of_mem _ hs)),
        m3 j (hj seq (List.mem_cons_self _ _))]
    · rw [r4, m4]
    · rw [hfm]
      have : ((b.siftMerges seq ++ foldMerges (b.sift seq).1 rest).length : Int)
          = (b.siftMerges seq).length + (foldMerges (b.sift seq).1 rest).length := by
        rw [List.length_append]
        push_cast
        ring
      rw [this]
      omega
    · rcases m10 with hm | hm
      · -- the head sift was a no-op
        have hacc : ((b.sift seq).1, (b.sift seq).2 || f0) = (b, f0) := by
          rw [hm.1, hm.2]
          simp
        rcases r6 with h | h
        · left
          rw [h, hacc]
        · right
          refine ⟨h.1, ?_⟩
          rw [dirPot_cons, dirPot_cons]
          have hline : linePot r.1.squares seq = linePot b.squares seq := by
            refine linePot_congr _ _ seq ?_
            intro c hc
            rw [hseq_untouched c hc, hm.2]
          have h2 := h.2
          rw [hm.2] at h2
          omega
      · -- the head sift moved
        right
        have hmv : r.2 = true := by
          rcases r6 with h | h
          · rw [h]
            simp [hm.1]
          · exact h.1
        refine ⟨hmv, ?_⟩
        rw [dirPot_cons, dirPot_cons]
        have hline : linePot r.1.squares seq = linePot (b.sift seq).1.squares seq := by
          refine linePot_congr _ _ seq ?_
          intro c hc
          exact hseq_untouched c hc
        have hrestpot : dirPot (b.sift seq).1.squares rest =
            dirPot b.squares rest := by
          refine dirPot_congr _ _ rest ?_
          intro s hs c hc
          exact hrest_untouched s hs c hc
        rcases r6 with h | h
        · have : r.1 = (b.sift seq).1 := by rw [h]
          rw [this, hrestpot]
          have := hm.2
          omega
        · have h2 := h.2
          rw [hrestpot] at h2
          rw [hline]
          have := hm.2
          omega

theorem dirPot_congr_occ (sq1 sq2 : List Int) (seqs : List (List Nat))
    (h : ∀ seq ∈ seqs, ∀ c ∈ seq, occ (sq1.getD c 0) = occ (sq2.getD c 0)) :
    dirPot sq1 seqs = dirPot sq2 seqs := by
  induction seqs with
  | nil => rfl
  | cons seq rest ih =>
    have hl : linePot sq1 seq = linePot sq2 seq :=
      linePotFrom_congr sq1 sq2 seq (h seq (List.mem_cons_self _ _)) 1
    rw [dirPot_cons, dirPot_cons, hl,
      ih (fun s hs => h s (List.mem_cons_of_mem _ hs))]

/-- If the sifting fold reports a change, the resulting board has an empty
cell: a full board can only change by merging, and every merge vacates a
cell. -/
theorem siftFold_empty_cell (seqs : List (List Nat)) (L : Nat)
    (hb : ∀ seq ∈ seqs, ∀ c ∈ seq, c < L)
    (hnd : ∀ seq ∈ seqs, seq.Nodup)
    (hpw : seqs.Pairwise (fun s t => ∀ c ∈ s, c ∉ t))
    (b : TFEBoard) (hL : b.squares.length = L)
    (hnn : ∀ x ∈ b.squares, 0 ≤ x)
    (hmv : (siftFold b seqs).2 = true) :
    ∃ j, j < (siftFold b seqs).1.squares.length ∧
      (siftFold b seqs).1.squares.getD j 0 = 0 := by
  obtain ⟨f1, f2, f3, f4, f5, f6⟩ :=
    foldl_sift_master seqs L hb hnd hpw b false hL hnn (siftFold b seqs) rfl
  by_contra hcon
  push_neg at hcon
  have hallpos : ∀ x ∈ (siftFold b seqs).1.squares, 0 < x := by
    intro x hx
    obtain ⟨j, hj, hjx⟩ := (mem_iff_getD _ x).1 hx
    have hne := hcon j hj
    rcases eq_or_lt_of_le (f2 x hx) with h | h
    · exfalso; exact hne (hjx ▸ h.symm)
    · exact h
  have hocc_r : cellSum occ (siftFold b seqs).1.squares =
      ((siftFold b seqs).1.squares.length : Int) :=
    (cellSum_occ_eq_length_iff _).2 hallpos
  have hocc_b_le : cellSum occ b.squares ≤ (L : Int) := by
    have := cellSum_occ_le_length b.squares
    rw [hL] at this
    exact this
  have hmlen : (0 : Int) ≤ ((foldMerges b seqs).length : Int) := by positivity
  have hocc_b : cellSum occ b.squares = (L : Int) := by
    rw [f1] at hocc_r
    omega
  have hallposb : ∀ x ∈ b.squares, 0 < x :=
    (cellSum_occ_eq_length_iff _).1 (by rw [hL]; exact hocc_b)
  have hpots : dirPot (siftFold b seqs).1.squares seqs =
      dirPot b.squares seqs := by
    refine dirPot_congr_occ _ _ seqs ?_
    intro seq hs c hc
    have hcL : c < L := hb seq hs c hc
    rw [occ_of_pos _ (hallpos _ (getD_mem _ c (by rw [f1]; exact hcL))),
      occ_of_pos _ (hallposb _ (getD_mem _ c (by rw [hL]; exact hcL)))]
  rcases f6 with h | h
  · rw [h] at hmv
    simp at hmv
  · have := h.2
    omega

/-- C8: the board-full error is unreachable through the public moves —
whenever the sifting fold of a direction reports that some cell changed,
the resulting board contains at least one empty cell, so the spawn that
`sift_all` then performs never hits a full board; consequently `Move`
always returns a value (never raises). -/
theorem c8_spawn_never_board_full (b : TFEBoard) (d : Direction)
    (k : Nat) (two : Bool) (hL : b.squares.length = b.n ^ 2)
    (hnn : ∀ x ∈ b.squares, 0 ≤ x) :
    ((siftFold b (dirSeqs b.n d)).2 = true →
      available (siftFold b (dirSeqs b.n d)).1.squares ≠ [] ∧
      (siftFold b (dirSeqs b.n d)).1.add_random k two ≠ none) ∧
    b.move d k two ≠ none := by
  have hmain : (siftFold b (dirSeqs b.n d)).2 = true →
      available (siftFold b (dirSeqs b.n d)).1.squares ≠ [] := by
    intro hmv
    obtain ⟨j, hj1, hj2⟩ := siftFold_empty_cell (dirSeqs b.n d) (b.n ^ 2)
      (dirSeqs_bounds b.n d) (dirSeqs_nodup b.n d) (dirSeqs_pairwise b.n d)
      b hL hnn hmv
    exact available_ne_nil _ j hj1 hj2
  constructor
  · intro hmv
    refine ⟨hmain hmv, ?_⟩
    intro hnone
    exact hmain hmv ((add_random_none_iff _ k two).1 hnone)
  · show (if (siftFold b (dirSeqs b.n d)).2
        then ((siftFold b (dirSeqs b.n d)).1.add_random k two).map
          (fun b2 => (b2, true))
        else some ((siftFold b (dirSeqs b.n d)).1, false)) ≠ none
    by_cases hmv : (siftFold b (dirSeqs b.n d)).2 = true
    · rw [if_pos hmv]
      obtain ⟨loc, b', he, _⟩ := add_random_spec _ k two (hmain hmv)
      rw [he]
      simp
    · rw [if_neg hmv]
      simp

theorem move_def (b : TFEBoard) (d : Direction) (k : Nat) (two : Bool) :
    b.move d k two =
      (if (siftFold b (dirSeqs b.n d)).2
        then ((siftFold b (dirSeqs b.n d)).1.add_random k two).map
          (fun b2 => (b2, true))
        else some ((siftFold b (dirSeqs b.n d)).1, false)) := rfl

theorem move_eq_some_true (b : TFEBoard) (d : Direction) (k : Nat)
    (two : Bool) (bd : TFEBoard)
    (h : b.move d k two = some (bd, true)) :
    (siftFold b (dirSeqs b.n d)).2 = true ∧
    (siftFold b (dirSeqs b.n d)).1.add_random k two = some bd := by
  rw [move_def] at h
  by_cases hmv : (siftFold b (dirSeqs b.n d)).2 = true
  · rw [if_pos hmv] at h
    obtain ⟨b2, hb2, he⟩ := Option.map_eq_some'.1 h
    have : b2 = bd := congrArg Prod.fst he
    exact ⟨hmv, this ▸ hb2⟩
  · rw [if_neg hmv] at h
    exfalso
    have := Option.some.inj h
    exact absurd (congrArg Prod.snd this) (by simp)

theorem move_eq_some_false (b : TFEBoard) (d : Direction) (k : Nat)
    (two : Bool) (bd : TFEBoard)
    (h : b.move d k two = some (bd, false)) :
    (siftFold b (dirSeqs b.n d)).2 = false ∧
    bd = (siftFold b (dirSeqs b.n d)).1 := by
  rw [move_def] at h
  by_cases hmv : (siftFold b (dirSeqs b.n d)).2 = true
  · rw [if_pos hmv] at h
    obtain ⟨b2, _, he⟩ := Option.map_eq_some'.1 h
    exfalso
    exact absurd (congrArg Prod.snd he) (by simp)
  · rw [if_neg hmv] at h
    have := Option.some.inj h
    exact ⟨by simpa using hmv, (congrArg Prod.fst this).symm⟩

/-- C3: `Move(d)` sifts every one of the `b.n` lines of the direction (the
fold is over the whole line family by construction, with no
short-circuiting) and returns `true` iff at least one cell changed during
the sifting; when it returns `true` exactly one spawn is performed on the
sifted board, and when it returns `false` the returned board is
bit-for-bit the argument board (cells and score identical) and no tile is
spawned. -/
theorem c3_move_change_iff (b : TFEBoard) (d : Direction) (k : Nat)
    (two : Bool) (hL : b.squares.length = b.n ^ 2)
    (hnn : ∀ x ∈ b.squares, 0 ≤ x) :
    (dirSeqs b.n d).length = b.n ∧
    ∃ bd fl, b.move d k two = some (bd, fl) ∧
      fl = (siftFold b (dirSeqs b.n d)).2 ∧
      (fl = true ↔ (siftFold b (dirSeqs b.n d)).1.squares ≠ b.squares) ∧
      (fl = false → bd = b) ∧
      (fl = true →
        (siftFold b (dirSeqs b.n d)).1.add_random k two = some bd) := by
  refine ⟨dirSeqs_length b.n d, ?_⟩
  obtain ⟨f1, f2, f3, f4, f5, f6⟩ :=
    foldl_sift_master (dirSeqs b.n d) (b.n ^ 2) (dirSeqs_bounds b.n d)
      (dirSeqs_nodup b.n d) (dirSeqs_pairwise b.n d) b false hL hnn
      (siftFold b (dirSeqs b.n d)) rfl
  by_cases hmv : (siftFold b (dirSeqs b.n d)).2 = true
  · have havail : available (siftFold b (dirSeqs b.n d)).1.squares ≠ [] := by
      obtain ⟨j, hj1, hj2⟩ := siftFold_empty_cell (dirSeqs b.n d) (b.n ^ 2)
        (dirSeqs_bounds b.n d) (dirSeqs_nodup b.n d) (dirSeqs_pairwise b.n d)
        b hL hnn hmv
      exact available_ne_nil _ j hj1 hj2
    obtain ⟨loc, b2, he, _⟩ := add_random_spec _ k two havail
    refine ⟨b2, true, ?_, hmv.symm, ?_, by simp, fun _ => he ▸ rfl⟩
    · rw [move_def, if_pos hmv, he]
      rfl
    · constructor
      · intro _
        rcases f6 with h | h
        · exfalso
          rw [h] at hmv
          simp at hmv
        · intro heq
          have : dirPot (siftFold b (dirSeqs b.n d)).1.squares
              (dirSeqs b.n d) = dirPot b.squares (dirSeqs b.n d) := by
            rw [heq]
          omega
      · intro _; rfl
  · have hfl : (siftFold b (dirSeqs b.n d)).2 = false := by
      simpa using hmv
    have hpb : siftFold b (dirSeqs b.n d) = (b, false) := by
      rcases f6 with h | h
      · exact h
      · exact absurd h.1 hmv
    refine ⟨b, false, ?_, hfl.symm, ?_, fun _ => rfl, by simp⟩
    · rw [move_def, if_neg hmv, hpb]
    · simp only [Bool.false_eq_true, false_iff, ne_eq, not_not]
      rw [hpb]

/-- C3 witness on a 2×2 board moved left. -/
theorem c3_witness :
    (TFEBoard.mk 2 0 [2, 2, 2, 2]).squares.length =
      (TFEBoard.mk 2 0 [2, 2, 2, 2]).n ^ 2 ∧
    (∀ x ∈ (TFEBoard.mk 2 0 [2, 2, 2, 2]).squares, 0 ≤ x) ∧
    ((dirSeqs (TFEBoard.mk 2 0 [2, 2, 2, 2]).n Direction.left).length =
        (TFEBoard.mk 2 0 [2, 2, 2, 2]).n ∧
      ∃ bd fl, (TFEBoard.mk 2 0 [2, 2, 2, 2]).move Direction.left 0 true =
          some (bd, fl) ∧
        fl = (siftFold (TFEBoard.mk 2 0 [2, 2, 2, 2])
          (dirSeqs (TFEBoard.mk 2 0 [2, 2, 2, 2]).n Direction.left)).2 ∧
        (fl = true ↔ (siftFold (TFEBoard.mk 2 0 [2, 2, 2, 2])
          (dirSeqs (TFEBoard.mk 2 0 [2, 2, 2, 2]).n Direction.left)).1.squares ≠
            (TFEBoard.mk 2 0 [2, 2, 2, 2]).squares) ∧
        (fl = false → bd = TFEBoard.mk 2 0 [2, 2, 2, 2]) ∧
        (fl = true → (siftFold (TFEBoard.mk 2 0 [2, 2, 2, 2])
          (dirSeqs (TFEBoard.mk 2 0 [2, 2, 2, 2]).n Direction.left)).1.add_random
            0 true = some bd)) :=
  ⟨by decide, by decide,
    c3_move_change_iff (TFEBoard.mk 2 0 [2, 2, 2, 2]) Direction.left 0 true
      (by decide) (by decide)⟩

/-- C4 (amended): after `Move(d)` returns `true` the number of nonzero
tiles changes by exactly `1 - m`, where `m ≥ 0` is the number of merges
the move performed (one spawn always follows an effective move and each
merge turns two tiles into one); in particular it increases by exactly 1
precisely when the move performed no merge.  The claim's unconditional
"+1" fails whenever the move merges at least one pair (see the
counterexample). -/
theorem c4_tile_count_amended (b : TFEBoard) (d : Direction) (k : Nat)
    (two : Bool) (bd : TFEBoard)
    (hL : b.squares.length = b.n ^ 2)
    (hnn : ∀ x ∈ b.squares, 0 ≤ x)
    (hmv : b.move d k two = some (bd, true)) :
    (nonzeroCount bd.squares : Int) =
      (nonzeroCount b.squares : Int) + 1 -
        ((foldMerges b (dirSeqs b.n d)).length : Int) ∧
    (foldMerges b (dirSeqs b.n d) = [] →
      nonzeroCount bd.squares = nonzeroCount b.squares + 1) := by
  obtain ⟨hmvf, hsp⟩ := move_eq_some_true b d k two bd hmv
  obtain ⟨f1, f2, f3, f4, f5, f6⟩ :=
    foldl_sift_master (dirSeqs b.n d) (b.n ^ 2) (dirSeqs_bounds b.n d)
      (dirSeqs_nodup b.n d) (dirSeqs_pairwise b.n d) b false hL hnn
      (siftFold b (dirSeqs b.n d)) rfl
  have havail : available (siftFold b (dirSeqs b.n d)).1.squares ≠ [] := by
    intro hemp
    rw [(add_random_none_iff _ k two).2 hemp] at hsp
    exact Option.noConfusion hsp
  obtain ⟨loc, b2, he, hlt, hz, hsq, _, _⟩ := add_random_spec _ k two havail
  have hb2 : b2 = bd := by
    rw [he] at hsp
    exact Option.some.inj hsp
  have hcount : nonzeroCount bd.squares =
      nonzeroCount (siftFold b (dirSeqs b.n d)).1.squares + 1 := by
    rw [← hb2, hsq]
    exact nonzeroCount_set_of_zero _ loc hlt hz _ (by cases two <;> simp)
  have hcv_b : cellSum occ b.squares = (nonzeroCount b.squares : Int) :=
    cellSum_occ_eq_nonzeroCount b.squares hnn
  have hcv_p : cellSum occ (siftFold b (dirSeqs b.n d)).1.squares =
      (nonzeroCount (siftFold b (dirSeqs b.n d)).1.squares : Int) :=
    cellSum_occ_eq_nonzeroCount _ f2
  constructor
  · rw [hcount]
    push_cast
    omega
  · intro hfm
    rw [hfm] at f5
    simp at f5
    rw [hcount]
    have : (nonzeroCount (siftFold b (dirSeqs b.n d)).1.squares : Int) =
        (nonzeroCount b.squares : Int) := by omega
    omega

/-- C4 witness: a left move on `[2, 0, 0, 2]` (no merge possible) spawns
one tile and increases the count by exactly 1. -/
theorem c4_witness :
    (TFEBoard.mk 2 0 [2, 0, 0, 2]).squares.length =
      (TFEBoard.mk 2 0 [2, 0, 0, 2]).n ^ 2 ∧
    (∀ x ∈ (TFEBoard.mk 2 0 [2, 0, 0, 2]).squares, 0 ≤ x) ∧
    (TFEBoard.mk 2 0 [2, 0, 0, 2]).move Direction.left 0 true =
      some (TFEBoard.mk 2 0 [2, 2, 2, 0], true) ∧
    ((nonzeroCount (TFEBoard.mk 2 0 [2, 2, 2, 0]).squares : Int) =
      (nonzeroCount (TFEBoard.mk 2 0 [2, 0, 0, 2]).squares : Int) + 1 -
        ((foldMerges (TFEBoard.mk 2 0 [2, 0, 0, 2])
          (dirSeqs (TFEBoard.mk 2 0 [2, 0, 0, 2]).n Direction.left)).length : Int) ∧
      (foldMerges (TFEBoard.mk 2 0 [2, 0, 0, 2])
          (dirSeqs (TFEBoard.mk 2 0 [2, 0, 0, 2]).n Direction.left) = [] →
        nonzeroCount (TFEBoard.mk 2 0 [2, 2, 2, 0]).squares =
          nonzeroCount (TFEBoard.mk 2 0 [2, 0, 0, 2]).squares + 1)) :=
  ⟨by decide, by decide, by decide,
    c4_tile_count_amended (TFEBoard.mk 2 0 [2, 0, 0, 2]) Direction.left 0 true
      (TFEBoard.mk 2 0 [2, 2, 2, 0]) (by decide) (by decide) (by decide)⟩

/-- C5: the sum of all cell values is conserved by every move except for
the spawned tile — an effective move adds exactly the spawned value (2
when the 90% draw hit, else 4); merges preserve the sum (two tiles of
value v become one of 2v), and a refused move leaves the sum unchanged. -/
theorem c5_sum_conservation (b : TFEBoard) (d : Direction) (k : Nat)
    (two : Bool) (hL : b.squares.length = b.n ^ 2)
    (hnn : ∀ x ∈ b.squares, 0 ≤ x) :
    (∀ bd, b.move d k two = some (bd, true) →
      bd.squares.sum = b.squares.sum + (if two then 2 else 4)) ∧
    (∀ bd, b.move d k two = some (bd, false) →
      bd.squares.sum = b.squares.sum) := by
  obtain ⟨f1, f2, f3, f4, f5, f6⟩ :=
    foldl_sift_master (dirSeqs b.n d) (b.n ^ 2) (dirSeqs_bounds b.n d)
      (dirSeqs_nodup b.n d) (dirSeqs_pairwise b.n d) b false hL hnn
      (siftFold b (dirSeqs b.n d)) rfl
  have hsum_p : (siftFold b (dirSeqs b.n d)).1.squares.sum =
      b.squares.sum := by
    rw [← cellSum_vis_eq_sum _ f2, ← cellSum_vis_eq_sum _ hnn]
    exact f4
  constructor
  · intro bd hmv
    obtain ⟨hmvf, hsp⟩ := move_eq_some_true b d k two bd hmv
    have havail : available (siftFold b (dirSeqs b.n d)).1.squares ≠ [] := by
      intro hemp
      rw [(add_random_none_iff _ k two).2 hemp] at hsp
      exact Option.noConfusion hsp
    obtain ⟨loc, b2, he, hlt, hz, hsq, _, _⟩ := add_random_spec _ k two havail
    have hb2 : b2 = bd := by
      rw [he] at hsp
      exact Option.some.inj hsp
    have hid : ∀ l : List Int, cellSum (fun x => x) l = l.sum := by
      intro l
      simp [cellSum]
    rw [← hb2, hsq, ← hid, cellSum_set (fun x => x) _ loc hlt, hz, hid,
      hsum_p]
    ring
  · intro bd hmv
    obtain ⟨hmvf, hbd⟩ := move_eq_some_false b d k two bd hmv
    rw [hbd]
    exact hsum_p

/-- C5 witness: the merging left move on `[2, 2, 2, 2]` adds exactly the
spawned 2, and the refused left move on `[2, 0, 0, 0]` keeps the sum. -/
theorem c5_witness :
    ((TFEBoard.mk 2 0 [2, 2, 2, 2]).squares.length =
        (TFEBoard.mk 2 0 [2, 2, 2, 2]).n ^ 2 ∧
      (∀ x ∈ (TFEBoard.mk 2 0 [2, 2, 2, 2]).squares, 0 ≤ x) ∧
      (TFEBoard.mk 2 0 [2, 2, 2, 2]).move Direction.left 0 true =
        some (TFEBoard.mk 2 8 [4, 2, 4, 0], true) ∧
      (TFEBoard.mk 2 8 [4, 2, 4, 0]).squares.sum =
        (TFEBoard.mk 2 0 [2, 2, 2, 2]).squares.sum + (if true then 2 else 4)) ∧
    ((TFEBoard.mk 2 0 [2, 0, 0, 0]).move Direction.left 0 true =
        some (TFEBoard.mk 2 0 [2, 0, 0, 0], false) ∧
      (TFEBoard.mk 2 0 [2, 0, 0, 0]).squares.sum =
        (TFEBoard.mk 2 0 [2, 0, 0, 0]).squares.sum) := by
  constructor
  · refine ⟨by decide, by decide, by decide, ?_⟩
    exact (c5_sum_conservation (TFEBoard.mk 2 0 [2, 2, 2, 2]) Direction.left
      0 true (by decide) (by decide)).1 (TFEBoard.mk 2 8 [4, 2, 4, 0])
      (by decide)
  · refine ⟨by decide, ?_⟩
    exact (c5_sum_conservation (TFEBoard.mk 2 0 [2, 0, 0, 0]) Direction.left
      0 true (by decide) (by decide)).2 (TFEBoard.mk 2 0 [2, 0, 0, 0])
      (by decide)

/-- C6: the score never decreases under any operation — construction sets
it to 0, a spawn leaves it unchanged, and a move increases it by exactly
the doubled value of each merge performed (the sum of the positive ghost
merge log amounts), in particular never decreasing it.  No assumption on
the board is needed. -/
theorem c6_score_monotone :
    (∀ n k1 k2 t1 t2 b, TFEBoard.init n k1 k2 t1 t2 = some b →
      b.score = 0) ∧
    (∀ (b : TFEBoard) (k : Nat) (two : Bool) b',
      b.add_random k two = some b' → b'.score = b.score) ∧
    (∀ (b : TFEBoard) (d : Direction) (k : Nat) (two : Bool)
        (bd : TFEBoard) (fl : Bool), b.move d k two = some (bd, fl) →
      bd.score = b.score +
        ((foldMerges b (dirSeqs b.n d)).map Prod.snd).sum ∧
      (∀ e ∈ foldMerges b (dirSeqs b.n d), 0 < e.2) ∧
      b.score ≤ bd.score) := by
  have hspawn : ∀ (b : TFEBoard) (k : Nat) (two : Bool) b',
      b.add_random k two = some b' → b'.score = b.score := by
    intro b k two b' h
    unfold TFEBoard.add_random at h
    by_cases he : available b.squares = []
    · rw [if_pos he] at h
      exact Option.noConfusion h
    · rw [if_neg he] at h
      have := Option.some.inj h
      rw [← this]
  refine ⟨?_, hspawn, ?_⟩
  · intro n k1 k2 t1 t2 b h
    have h' : ((TFEBoard.mk n 0 (List.replicate (n ^ 2) 0)).add_random
        k1 t1).bind (fun bb => bb.add_random k2 t2) = some b := h
    rcases h1 : (TFEBoard.mk n 0
        (List.replicate (n ^ 2) 0)).add_random k1 t1 with _ | b1
    · rw [h1] at h'
      exact Option.noConfusion h'
    · rw [h1, Option.some_bind] at h'
      rw [hspawn b1 k2 t2 b h', hspawn _ k1 t1 b1 h1]
  · intro b d k two bd fl h
    obtain ⟨hsc, hpos, hn, hmono⟩ :=
      foldl_sift_score (dirSeqs b.n d) b false (siftFold b (dirSeqs b.n d))
        rfl
    have hsum_nonneg : 0 ≤
        ((foldMerges b (dirSeqs b.n d)).map Prod.snd).sum := by
      refine List.sum_nonneg ?_
      intro x hx
      obtain ⟨e, he, rfl⟩ := List.mem_map.1 hx
      exact le_of_lt (hpos e he)
    rw [move_def] at h
    by_cases hmv : (siftFold b (dirSeqs b.n d)).2 = true
    · rw [if_pos hmv] at h
      obtain ⟨b2, hb2, he⟩ := Option.map_eq_some'.1 h
      have hbd : b2 = bd := congrArg Prod.fst he
      have := hspawn _ k two b2 hb2
      rw [← hbd, this, hsc]
      exact ⟨rfl, hpos, by omega⟩
    · rw [if_neg hmv] at h
      have hbd : bd = (siftFold b (dirSeqs b.n d)).1 :=
        (congrArg Prod.fst (Option.some.inj h)).symm
      rw [hbd, hsc]
      exact ⟨rfl, hpos, by omega⟩

/-- C6 witness: construction, a concrete spawn, and the merging left move
on `[2, 2, 2, 2]` (score 0 → 8 = 4 + 4, never decreasing). -/
theorem c6_witness :
    (TFEBoard.init 2 0 0 true true = some (TFEBoard.mk 2 0 [2, 2, 0, 0]) →
      (TFEBoard.mk 2 0 [2, 2, 0, 0]).score = 0) ∧
    ((TFEBoard.mk 2 0 [2, 2, 0, 0]).add_random 0 true =
        some (TFEBoard.mk 2 0 [2, 2, 2, 0]) →
      (TFEBoard.mk 2 0 [2, 2, 2, 0]).score =
        (TFEBoard.mk 2 0 [2, 2, 0, 0]).score) ∧
    ((TFEBoard.mk 2 0 [2, 2, 2, 2]).move Direction.left 0 true =
        some (TFEBoard.mk 2 8 [4, 2, 4, 0], true) →
      (TFEBoard.mk 2 8 [4, 2, 4, 0]).score =
        (TFEBoard.mk 2 0 [2, 2, 2, 2]).score +
          ((foldMerges (TFEBoard.mk 2 0 [2, 2, 2, 2])
            (dirSeqs (TFEBoard.mk 2 0 [2, 2, 2, 2]).n Direction.left)).map
              Prod.snd).sum ∧
      (∀ e ∈ foldMerges (TFEBoard.mk 2 0 [2, 2, 2, 2])
          (dirSeqs (TFEBoard.mk 2 0 [2, 2, 2, 2]).n Direction.left),
        0 < e.2) ∧
      (TFEBoard.mk 2 0 [2, 2, 2, 2]).score ≤
        (TFEBoard.mk 2 8 [4, 2, 4, 0]).score) :=
  ⟨c6_score_monotone.1 2 0 0 true true (TFEBoard.mk 2 0 [2, 2, 0, 0]),
    c6_score_monotone.2.1 (TFEBoard.mk 2 0 [2, 2, 0, 0]) 0 true
      (TFEBoard.mk 2 0 [2, 2, 2, 0]),
    c6_score_monotone.2.2 (TFEBoard.mk 2 0 [2, 2, 2, 2]) Direction.left 0
      true (TFEBoard.mk 2 8 [4, 2, 4, 0]) true⟩

/-- C8 witness: the full 2×2 board `[2, 2, 2, 2]` still moves left without
hitting the board-full error. -/
theorem c8_witness :
    (TFEBoard.mk 2 0 [2, 2, 2, 2]).squares.length =
      (TFEBoard.mk 2 0 [2, 2, 2, 2]).n ^ 2 ∧
    (∀ x ∈ (TFEBoard.mk 2 0 [2, 2, 2, 2]).squares, 0 ≤ x) ∧
    (TFEBoard.mk 2 0 [2, 2, 2, 2]).move Direction.left 0 true ≠ none :=
  ⟨by decide, by decide,
    (c8_spawn_never_board_full (TFEBoard.mk 2 0 [2, 2, 2, 2]) Direction.left
      0 true (by decide) (by decide)).2⟩
